import Mathlib

/-!
Verification of the zenith tokenizer.

This file embeds the character-scanning state machine of the zenith
repository in Lean: the cursor (src/zenith-lexer/src/lexer.rs, struct
Lexer), the token data model (src/zenith-lexer/src/types.rs) and the
classification loop (src/zenith-lexer/src/lib.rs, fn tokenize_code),
together with the older copy of the same scanner
(src/src/lexer.rs, fn lex_code).

Modelling conventions:
- the Rust usize index is a Nat; the one place the code subtracts from it
  (decrement_idx) is modelled with truncated subtraction plus a Boolean
  field uflow that records whether a subtraction at index 0 (an arithmetic
  underflow, a panic in debug builds) ever happened;
- the three panic sites of the scanner (panic, unimplemented, unreachable)
  become the error type ZError; each error constructor carries exactly the
  data interpolated into the corresponding Rust panic message;
- while loops become fuel-indexed structural recursion; the fuel
  (buffer length + 1) strictly bounds the number of iterations because
  every iteration advances the index and requires it to be in bounds;
- f64 semantics are out of scope: a Float token stores the literal text.
  The parse model is restricted to the strings the scanner can produce
  (a digit followed by digits and dots): i64 parsing succeeds iff the
  text is all digits with value at most 2^63 - 1, f64 parsing succeeds
  iff at most one dot occurs.
-/

namespace Zenith

/-- Position, from src/zenith-lexer/src/lexer.rs (identical in src/src/lexer.rs). -/
structure Position where
  line : Nat
  column : Nat
deriving DecidableEq, Repr

/-- The cursor state, Rust struct Lexer. The extra field uflow instruments
the usize subtraction in decrement_idx: it becomes true if the subtraction
ever happens at index 0 (an underflow). -/
structure Lexer where
  chars : List Char
  idx : Nat
  pos : Position
  lastPos : Position
  uflow : Bool
deriving Repr

/-- Lexer::new. -/
def Lexer.new (cs : List Char) : Lexer :=
  { chars := cs, idx := 0, pos := ⟨1, 1⟩, lastPos := ⟨1, 1⟩, uflow := false }

/-- Lexer::get_current_char. -/
def Lexer.get_current_char (l : Lexer) : Option Char :=
  l.chars[l.idx]?

/-- Lexer::peek_next_char. -/
def Lexer.peek_next_char (l : Lexer) : Option Char :=
  l.chars[l.idx + 1]?

/-- Lexer::increment_idx: cache the position, bump line/column according to
the character being stepped over (the wildcard arm of the Rust match also
covers stepping past the end of the buffer), then bump the index. -/
def Lexer.increment_idx (l : Lexer) : Lexer :=
  let newPos :=
    match l.chars[l.idx]? with
    | some '\n' => { line := l.pos.line + 1, column := 1 }
    | _ => { l.pos with column := l.pos.column + 1 }
  { l with lastPos := l.pos, pos := newPos, idx := l.idx + 1 }

/-- Lexer::decrement_idx: restore the cached position and subtract one from
the index. The subtraction is on a usize; uflow records an underflow. -/
def Lexer.decrement_idx (l : Lexer) : Lexer :=
  { l with pos := l.lastPos, idx := l.idx - 1, uflow := l.uflow || decide (l.idx = 0) }

/-- Loop body of Lexer::collect_until, fuel-indexed. -/
def collectGo : Nat → (Char → Bool) → Lexer → List Char × Lexer
  | 0, _, l => ([], l)
  | fuel + 1, cond, l =>
    match l.get_current_char with
    | none => ([], l)
    | some ch =>
      if cond ch then ([], l.decrement_idx)
      else
        let (cs, l₂) := collectGo fuel cond l.increment_idx
        (ch :: cs, l₂)

/-- Lexer::collect_until. The fuel strictly bounds the iteration count. -/
def Lexer.collect_until (l : Lexer) (cond : Char → Bool) : String × Lexer :=
  let (cs, l₂) := collectGo (l.chars.length + 1) cond l
  (String.mk cs, l₂)

/-- Loop of Lexer::skip_until, fuel-indexed. -/
def skipGo : Nat → (Char → Bool) → Lexer → Lexer
  | 0, _, l => l
  | fuel + 1, cond, l =>
    match l.get_current_char with
    | none => l
    | some ch =>
      if cond ch then l.decrement_idx
      else skipGo fuel cond l.increment_idx

/-- Lexer::skip_until: run the loop, then return idx - start + 1 (usize
arithmetic, modelled with truncated subtraction). -/
def Lexer.skip_until (l : Lexer) (cond : Char → Bool) : Nat × Lexer :=
  let start := l.idx
  let l₂ := skipGo (l.chars.length + 1) cond l
  (l₂.idx - start + 1, l₂)

/-- Raw idx += 1 used by the punctuation branch of the old scanner
(src/src/lexer.rs line 288): no position bookkeeping. -/
def Lexer.raw_increment (l : Lexer) : Lexer :=
  { l with idx := l.idx + 1 }

/-- Raw idx -= 1 used by the punctuation branch of the old scanner
(src/src/lexer.rs line 303): usize subtraction, no position bookkeeping. -/
def Lexer.raw_decrement (l : Lexer) : Lexer :=
  { l with idx := l.idx - 1, uflow := l.uflow || decide (l.idx = 0) }

/-- Token payload for numbers (types.rs, enum Number). A Float stores the
literal text, since f64 value semantics are out of scope. -/
inductive Number where
  | Int (n : Int)
  | Float (s : String)
deriving DecidableEq, Repr

/-- types.rs, enum Keyword. -/
inductive Keyword where
  | Function | If | Else | End | Return | Mutable | For | In
deriving DecidableEq, Repr

/-- types.rs, enum BuiltinType. -/
inductive BuiltinType where
  | Int | Float | Boolean | Array | String
deriving DecidableEq, Repr

/-- types.rs, enum Token (identical in src/src/lexer.rs). -/
inductive Token where
  | Ident (s : String)
  | Number (n : Number)
  | String (s : String)
  | Comment (s : String)
  | Whitespace (n : Nat)
  | Keyword (k : Keyword)
  | BuiltinType (b : BuiltinType)
  | ReturnType
  | Assign | Eq | NotEq | GreaterThanOrEq | LessThanOrEq
  | RelationalPlus | RelationalMinus | RelationalMul | RelationalDiv
  | Bang | Shabang | Dollar | Percent | Ampersand
  | OpenParen | CloseParen | Asterisk | Plus | Minus
  | Comma | Period | Slash | Colon | Semicolon
  | LessThan | Equals | GreaterThan | QuestionMark | AtSign
  | OpenSquareBracket | Backslash | CloseSquareBracket | Caret
  | OpenCurlyBrace | VerticalBar | CloseCurlyBrace
deriving DecidableEq, Repr

/-- types.rs, struct EnrichedToken. -/
structure EnrichedToken where
  start : Position
  stop : Position
  token : Token
deriving DecidableEq, Repr

/-- EnrichedToken::strip_token. -/
def EnrichedToken.strip_token (t : EnrichedToken) : Token := t.token

/-- The three panic sites of the scanner. Each constructor carries exactly
the data interpolated into the corresponding panic message:
unexpectedChar for panic("unexpected char", ch), unimplementedPunct for
unimplemented("punctuation", ch), unparseableNumber for
unreachable("not a i64 or f64", number_str). -/
inductive ZError where
  | unexpectedChar (ch : Char)
  | unimplementedPunct (ch : Char)
  | unparseableNumber (s : String)
deriving DecidableEq, Repr

/-- lib.rs fn is_identifier: ch.is_ascii_alphabetic() or underscore.
Char.isAlpha in Lean core is exactly the ASCII alphabetic test. -/
def is_identifier (ch : Char) : Bool :=
  ch.isAlpha || ch == '_'

/-- lib.rs fn is_punctuation: the fixed 27-character set. -/
def is_punctuation (ch : Char) : Bool :=
  ch == '!' || ch == '#' || ch == '$' || ch == '%' || ch == '&' ||
  ch == '(' || ch == ')' || ch == '*' || ch == '+' || ch == '-' ||
  ch == ',' || ch == '.' || ch == '/' || ch == ':' || ch == ';' ||
  ch == '<' || ch == '=' || ch == '>' || ch == '?' || ch == '@' ||
  ch == '[' || ch == '\\' || ch == ']' || ch == '^' || ch == '{' ||
  ch == '|' || ch == '}'

/-- lib.rs fn is_number: ch.is_ascii_digit(). The old file spells it
as a range match on 0..=9, which is the same predicate. -/
def is_number (ch : Char) : Bool :=
  ch.isDigit

/-- Rust char::is_whitespace: the Unicode White_Space property.
Lean Char.isWhitespace covers only four ASCII characters, so the Rust
predicate is spelled out. -/
def rustIsWhitespace (c : Char) : Bool :=
  c.val == 0x09 || c.val == 0x0A || c.val == 0x0B || c.val == 0x0C ||
  c.val == 0x0D || c.val == 0x20 || c.val == 0x85 || c.val == 0xA0 ||
  c.val == 0x1680 || (0x2000 ≤ c.val && c.val ≤ 0x200A) ||
  c.val == 0x2028 || c.val == 0x2029 || c.val == 0x202F ||
  c.val == 0x205F || c.val == 0x3000

/-- Rust str::trim on a character list: strip leading and trailing
Unicode whitespace. -/
def rustTrim (s : List Char) : List Char :=
  ((s.dropWhile rustIsWhitespace).reverse.dropWhile rustIsWhitespace).reverse

/-- Digit-string value (the value str::parse computes for an unsigned
all-digit string). -/
def digitsVal (s : List Char) : Nat :=
  s.foldl (fun acc c => acc * 10 + (c.toNat - 48)) 0

/-- Model of str::parse for i64, restricted to the sign-free digit/dot
strings the number branch produces: parsing succeeds iff the text is
nonempty, all digits, and the value fits in an i64. -/
def parseI64 (s : List Char) : Option Int :=
  if !s.isEmpty && s.all Char.isDigit && digitsVal s ≤ 9223372036854775807 then
    some (digitsVal s)
  else none

/-- Model of str::parse for f64, restricted to the nonempty digit-led
digit/dot strings the number branch produces: parsing succeeds iff at
most one dot occurs (an all-digit text always parses, with rounding or
overflow to infinity, both of which are Ok in Rust). -/
def parseF64ok (s : List Char) : Bool :=
  s.countP (fun c => c == '.') ≤ 1

/-- The number branch of the scanner: try i64, then f64
(lib.rs lines 96-102, identical in src/src/lexer.rs lines 272-278). -/
def parseNumber (s : String) : Option Number :=
  match parseI64 s.data with
  | some n => some (.Int n)
  | none => if parseF64ok s.data then some (.Float s) else none

/-- The keyword / builtin-type-name table applied to a collected
identifier (lib.rs lines 43-59, identical in src/src/lexer.rs). -/
def identToken (ident : String) : Token :=
  match ident with
  | "int" => .BuiltinType .Int
  | "float" => .BuiltinType .Float
  | "boolean" => .BuiltinType .Boolean
  | "string" => .BuiltinType .String
  | "fn" => .Keyword .Function
  | "if" => .Keyword .If
  | "else" => .Keyword .Else
  | "end" => .Keyword .End
  | "return" => .Keyword .Return
  | "mut" => .Keyword .Mutable
  | "for" => .Keyword .For
  | "in" => .Keyword .In
  | _ => .Ident ident

/-- The two-character operator table of the current scanner
(lib.rs lines 111-123). The Rust code matches the ordered pair
(ch, next_ch); the eleven pair patterns are pairwise disjoint, so they
are grouped here by first character (the two pairs starting with a minus
keep their relative source order) without changing the function. -/
def pairToken (a b : Char) : Option Token :=
  match a with
  | '[' => match b with | ']' => some (.BuiltinType .Array) | _ => none
  | ':' => match b with | '=' => some .Assign | _ => none
  | '=' => match b with | '=' => some .Eq | _ => none
  | '!' => match b with | '=' => some .NotEq | _ => none
  | '>' => match b with | '=' => some .GreaterThanOrEq | _ => none
  | '<' => match b with | '=' => some .LessThanOrEq | _ => none
  | '-' => match b with | '>' => some .ReturnType | '=' => some .RelationalMinus | _ => none
  | '+' => match b with | '=' => some .RelationalPlus | _ => none
  | '*' => match b with | '=' => some .RelationalMul | _ => none
  | '/' => match b with | '=' => some .RelationalDiv | _ => none
  | _ => none

/-- The two-character operator table of the old scanner
(src/src/lexer.rs lines 290-301): the same eleven disjoint pairs, listed
in the old source order (grouped by first character in that order). -/
def pairTokenOld (a b : Char) : Option Token :=
  match a with
  | ':' => match b with | '=' => some .Assign | _ => none
  | '=' => match b with | '=' => some .Eq | _ => none
  | '!' => match b with | '=' => some .NotEq | _ => none
  | '>' => match b with | '=' => some .GreaterThanOrEq | _ => none
  | '<' => match b with | '=' => some .LessThanOrEq | _ => none
  | '[' => match b with | ']' => some (.BuiltinType .Array) | _ => none
  | '-' => match b with | '>' => some .ReturnType | '=' => some .RelationalMinus | _ => none
  | '+' => match b with | '=' => some .RelationalPlus | _ => none
  | '*' => match b with | '=' => some .RelationalMul | _ => none
  | '/' => match b with | '=' => some .RelationalDiv | _ => none
  | _ => none

/-- The single-character punctuation table (lib.rs lines 136-164,
identical in src/src/lexer.rs lines 314-342). -/
def singleToken (ch : Char) : Option Token :=
  match ch with
  | '!' => some .Bang
  | '#' => some .Shabang
  | '$' => some .Dollar
  | '%' => some .Percent
  | '&' => some .Ampersand
  | '(' => some .OpenParen
  | ')' => some .CloseParen
  | '*' => some .Asterisk
  | '+' => some .Plus
  | '-' => some .Minus
  | ',' => some .Comma
  | '.' => some .Period
  | '/' => some .Slash
  | ':' => some .Colon
  | ';' => some .Semicolon
  | '<' => some .LessThan
  | '=' => some .Equals
  | '>' => some .GreaterThan
  | '?' => some .QuestionMark
  | '@' => some .AtSign
  | '[' => some .OpenSquareBracket
  | '\\' => some .Backslash
  | ']' => some .CloseSquareBracket
  | '^' => some .Caret
  | '{' => some .OpenCurlyBrace
  | '|' => some .VerticalBar
  | '}' => some .CloseCurlyBrace
  | _ => none

/-- The string-literal loop (lib.rs lines 65-80, identical in
src/src/lexer.rs lines 241-256): on a backslash advance and copy the
following character verbatim when present, stop on a quote, copy
anything else; every arm but the quote is followed by the common
increment at the bottom of the loop. -/
def stringGo : Nat → Lexer → List Char × Lexer
  | 0, l => ([], l)
  | fuel + 1, l =>
    match l.get_current_char with
    | none => ([], l)
    | some ch =>
      if ch == '\\' then
        let l₁ := l.increment_idx
        match l₁.get_current_char with
        | some c2 =>
          let (cs, lf) := stringGo fuel l₁.increment_idx
          (c2 :: cs, lf)
        | none =>
          let (cs, lf) := stringGo fuel l₁.increment_idx
          (cs, lf)
      else if ch == '"' then ([], l)
      else
        let (cs, lf) := stringGo fuel l.increment_idx
        (ch :: cs, lf)

/-- The punctuation arm of the current scanner (lib.rs lines 105-166):
two-character lookahead first (advancing with increment_idx and undoing
a failed lookahead with decrement_idx), then the single-character table. -/
def punctStep (l : Lexer) (ch : Char) : Except ZError Token × Lexer :=
  let dm : Option Token × Lexer :=
    match l.peek_next_char with
    | some next =>
      if is_punctuation next then
        let la := l.increment_idx
        match pairToken ch next with
        | some t => (some t, la)
        | none => (none, la.decrement_idx)
      else (none, l)
    | none => (none, l)
  match dm with
  | (some t, l₁) => (.ok t, l₁)
  | (none, l₁) =>
    match singleToken ch with
    | some t => (.ok t, l₁)
    | none => (.error (.unimplementedPunct ch), l₁)

/-- The punctuation arm of the old scanner (src/src/lexer.rs lines
281-344): identical control flow, but the tentative advance and the
retreat are raw index arithmetic with no position bookkeeping, and the
pair table is listed in the old order. -/
def punctStepOld (l : Lexer) (ch : Char) : Except ZError Token × Lexer :=
  let dm : Option Token × Lexer :=
    match l.peek_next_char with
    | some next =>
      if is_punctuation next then
        let la := l.raw_increment
        match pairTokenOld ch next with
        | some t => (some t, la)
        | none => (none, la.raw_decrement)
      else (none, l)
    | none => (none, l)
  match dm with
  | (some t, l₁) => (.ok t, l₁)
  | (none, l₁) =>
    match singleToken ch with
    | some t => (.ok t, l₁)
    | none => (.error (.unimplementedPunct ch), l₁)

/-- One dispatch of the classification loop of tokenize_code
(lib.rs lines 34-169), given the current character. The arms appear in
the source order of the Rust match; a failed guard on the comment arm
falls through to the later arms exactly as in Rust. The comment guard
is peek_next_char().unwrap_or the slash character. -/
def scanStep (l : Lexer) (ch : Char) : Except ZError Token × Lexer :=
  if rustIsWhitespace ch then
    let (len, l₂) := l.skip_until (fun c => !rustIsWhitespace c)
    (.ok (.Whitespace len), l₂)
  else if is_identifier ch then
    let (ident, l₂) := l.collect_until (fun c => !(is_identifier c || is_number c))
    (.ok (identToken ident), l₂)
  else if ch == '"' then
    let l₁ := l.increment_idx
    let (cs, l₂) := stringGo (l.chars.length + 1) l₁
    (.ok (.String (String.mk cs)), l₂)
  else if ch == '/' && ((l.peek_next_char).getD '/' == '/') then
    let l₁ := l.increment_idx.increment_idx
    let (comment, l₂) := l₁.collect_until (fun c => c == '\n')
    (.ok (.Comment (String.mk (rustTrim comment.data))), l₂)
  else if is_number ch then
    let (numStr, l₂) := l.collect_until (fun c => !is_number c && c != '.')
    match parseNumber numStr with
    | some n => (.ok (.Number n), l₂)
    | none => (.error (.unparseableNumber numStr), l₂)
  else if is_punctuation ch then
    punctStep l ch
  else (.error (.unexpectedChar ch), l)

/-- One dispatch of the old scanner lex_code (src/src/lexer.rs lines
210-347). Identical to scanStep except for the punctuation arm. -/
def scanStepOld (l : Lexer) (ch : Char) : Except ZError Token × Lexer :=
  if rustIsWhitespace ch then
    let (len, l₂) := l.skip_until (fun c => !rustIsWhitespace c)
    (.ok (.Whitespace len), l₂)
  else if is_identifier ch then
    let (ident, l₂) := l.collect_until (fun c => !(is_identifier c || is_number c))
    (.ok (identToken ident), l₂)
  else if ch == '"' then
    let l₁ := l.increment_idx
    let (cs, l₂) := stringGo (l.chars.length + 1) l₁
    (.ok (.String (String.mk cs)), l₂)
  else if ch == '/' && ((l.peek_next_char).getD '/' == '/') then
    let l₁ := l.increment_idx.increment_idx
    let (comment, l₂) := l₁.collect_until (fun c => c == '\n')
    (.ok (.Comment (String.mk (rustTrim comment.data))), l₂)
  else if is_number ch then
    let (numStr, l₂) := l.collect_until (fun c => !is_number c && c != '.')
    match parseNumber numStr with
    | some n => (.ok (.Number n), l₂)
    | none => (.error (.unparseableNumber numStr), l₂)
  else if is_punctuation ch then
    punctStepOld l ch
  else (.error (.unexpectedChar ch), l)

/-- The main while loop of tokenize_code, fuel-indexed: capture the start
position, dispatch on the current character, record the token with the
position the cursor holds after the dispatch, advance once, repeat.
Errors abort the scan; the cursor state is returned alongside so the
instrumented uflow flag is observable on every run. -/
def scanGo : Nat → Lexer → Except ZError (List EnrichedToken) × Lexer
  | 0, l => (.ok [], l)
  | fuel + 1, l =>
    match l.get_current_char with
    | none => (.ok [], l)
    | some ch =>
      let startPos := l.pos
      match scanStep l ch with
      | (.error e, l₁) => (.error e, l₁)
      | (.ok tok, l₁) =>
        match scanGo fuel l₁.increment_idx with
        | (.ok ts, lf) => (.ok (⟨startPos, l₁.pos, tok⟩ :: ts), lf)
        | (.error e, lf) => (.error e, lf)

/-- The main while loop of the old lex_code, fuel-indexed. -/
def scanGoOld : Nat → Lexer → Except ZError (List EnrichedToken) × Lexer
  | 0, l => (.ok [], l)
  | fuel + 1, l =>
    match l.get_current_char with
    | none => (.ok [], l)
    | some ch =>
      let startPos := l.pos
      match scanStepOld l ch with
      | (.error e, l₁) => (.error e, l₁)
      | (.ok tok, l₁) =>
        match scanGoOld fuel l₁.increment_idx with
        | (.ok ts, lf) => (.ok (⟨startPos, l₁.pos, tok⟩ :: ts), lf)
        | (.error e, lf) => (.error e, lf)

/-- Is the token a Whitespace token? Used by the post-loop policy. -/
def Token.isWs : Token → Bool
  | .Whitespace _ => true
  | _ => false

/-- The post-loop policy of tokenize_code (lib.rs lines 175-179,
identical in src/src/lexer.rs lines 358-362): if the very last emitted
token is a Whitespace token, pop it. -/
def dropTrailingWs (ts : List EnrichedToken) : List EnrichedToken :=
  match ts.getLast? with
  | some t => if t.token.isWs then ts.dropLast else ts
  | none => ts

/-- lib.rs fn tokenize_code on a character list. -/
def tokenize_code (code : List Char) : Except ZError (List EnrichedToken) :=
  match scanGo (code.length + 1) (Lexer.new code) with
  | (.ok ts, _) => .ok (dropTrailingWs ts)
  | (.error e, _) => .error e

/-- src/src/lexer.rs fn lex_code on a character list. -/
def lex_code (code : List Char) : Except ZError (List EnrichedToken) :=
  match scanGoOld (code.length + 1) (Lexer.new code) with
  | (.ok ts, _) => .ok (dropTrailingWs ts)
  | (.error e, _) => .error e

/-- The token list of a scan, positions stripped. -/
def stripped (r : Except ZError (List EnrichedToken)) : Except ZError (List Token) :=
  r.map (List.map EnrichedToken.strip_token)

/-- Index of the first character satisfying a predicate, used to state the
resting-index characterization of collect_until and skip_until. -/
def firstHit (cond : Char → Bool) : List Char → Option Nat
  | [] => none
  | c :: cs => if cond c then some 0 else (firstHit cond cs).map (· + 1)

/-- Two adjacent output tokens that would betray a non-greedy match of a
two-character operator: Colon then Equals, or OpenSquareBracket then
CloseSquareBracket. -/
def greedyOk (a b : Token) : Bool :=
  !(a == .Colon && b == .Equals) &&
  !(a == .OpenSquareBracket && b == .CloseSquareBracket)

/-- The characters after an opening quote form an unterminated string
literal: no closing quote is reached, counting the character after each
backslash as escaped. -/
def strUnterminated : List Char → Bool
  | [] => true
  | '\\' :: [] => true
  | '\\' :: _ :: r => strUnterminated r
  | '"' :: _ => false
  | _ :: r => strUnterminated r

/-- The text the string loop accumulates from the characters after the
opening quote when the literal is unterminated: each character after a
backslash is copied verbatim, everything else is copied as is. -/
def strContent : List Char → List Char
  | [] => []
  | '\\' :: [] => []
  | '\\' :: c :: r => c :: strContent r
  | '"' :: _ => []
  | c :: r => c :: strContent r

/-- The number of index increments the string loop performs on the
characters after the opening quote: a backslash consumes two characters
(even a lone trailing one advances twice past end-of-input), a closing
quote stops without consuming, anything else consumes one. -/
def strAdv : List Char → Nat
  | [] => 0
  | '\\' :: [] => 2
  | '\\' :: _ :: r => 2 + strAdv r
  | '"' :: _ => 0
  | _ :: r => 1 + strAdv r

/-! ## Basic cursor lemmas -/

@[simp] theorem increment_idx_chars (l : Lexer) : l.increment_idx.chars = l.chars := rfl

@[simp] theorem increment_idx_idx (l : Lexer) : l.increment_idx.idx = l.idx + 1 := rfl

@[simp] theorem increment_idx_uflow (l : Lexer) : l.increment_idx.uflow = l.uflow := rfl

@[simp] theorem decrement_idx_chars (l : Lexer) : l.decrement_idx.chars = l.chars := rfl

@[simp] theorem decrement_idx_idx (l : Lexer) : l.decrement_idx.idx = l.idx - 1 := rfl

@[simp] theorem decrement_idx_uflow (l : Lexer) :
    l.decrement_idx.uflow = (l.uflow || decide (l.idx = 0)) := rfl

@[simp] theorem raw_increment_chars (l : Lexer) : l.raw_increment.chars = l.chars := rfl

@[simp] theorem raw_increment_idx (l : Lexer) : l.raw_increment.idx = l.idx + 1 := rfl

@[simp] theorem raw_increment_uflow (l : Lexer) : l.raw_increment.uflow = l.uflow := rfl

@[simp] theorem raw_decrement_chars (l : Lexer) : l.raw_decrement.chars = l.chars := rfl

@[simp] theorem raw_decrement_idx (l : Lexer) : l.raw_decrement.idx = l.idx - 1 := rfl

@[simp] theorem raw_decrement_uflow (l : Lexer) :
    l.raw_decrement.uflow = (l.uflow || decide (l.idx = 0)) := rfl

theorem get_current_char_def (l : Lexer) : l.get_current_char = l.chars[l.idx]? := rfl

theorem peek_next_char_def (l : Lexer) : l.peek_next_char = l.chars[l.idx + 1]? := rfl

theorem firstHit_cons_neg {cond : Char → Bool} {c : Char} {cs : List Char}
    (h : cond c = false) :
    firstHit cond (c :: cs) = (firstHit cond cs).map (· + 1) := by
  simp [firstHit, h]

theorem firstHit_cons_pos {cond : Char → Bool} {c : Char} {cs : List Char}
    (h : cond c = true) : firstHit cond (c :: cs) = some 0 := by
  simp [firstHit, h]

/-- A buffer with a character at the index splits as that character
followed by the rest. -/
theorem drop_idx_cons {l : Lexer} {ch : Char} (hget : l.chars[l.idx]? = some ch) :
    l.chars.drop l.idx = ch :: l.chars.drop (l.idx + 1) := by
  obtain ⟨hlt, helem⟩ := List.getElem?_eq_some.mp hget
  rw [List.drop_eq_getElem_cons hlt, helem]

/-- The characterization of collectGo: the collected characters are the
longest run of predicate-failing characters from the index, the buffer is
untouched, the index ends one before the first predicate-satisfying
character (or at end-of-input when there is none), and the underflow flag
is raised exactly when the very first character already satisfies the
predicate while the index is 0. Holds whenever the fuel covers the
remaining buffer. -/
theorem collectGo_spec (fuel : Nat) (cond : Char → Bool) (l : Lexer)
    (hfuel : l.chars.length ≤ l.idx + fuel) :
    (collectGo fuel cond l).1 = (l.chars.drop l.idx).takeWhile (fun c => !cond c) ∧
    (collectGo fuel cond l).2.chars = l.chars ∧
    (collectGo fuel cond l).2.idx =
      (match firstHit cond (l.chars.drop l.idx) with
       | some k => l.idx + k - 1
       | none => max l.idx l.chars.length) ∧
    (collectGo fuel cond l).2.uflow =
      (l.uflow || (decide (l.idx = 0) &&
        (match l.chars[l.idx]? with
         | some c => cond c
         | none => false))) := by
  induction fuel generalizing l with
  | zero =>
    have hlen : l.chars.length ≤ l.idx := by omega
    have hdrop : l.chars.drop l.idx = [] := List.drop_eq_nil_of_le hlen
    have hget : l.chars[l.idx]? = none := List.getElem?_eq_none hlen
    simp [collectGo, hdrop, firstHit, hget, Nat.max_eq_left hlen]
  | succ fuel ih =>
    match hcur : l.get_current_char with
    | none =>
      have hget : l.chars[l.idx]? = none := hcur
      have hlen : l.chars.length ≤ l.idx := by
        by_contra hge
        rw [List.getElem?_eq_getElem (by omega)] at hget
        exact Option.noConfusion hget
      have hdrop : l.chars.drop l.idx = [] := List.drop_eq_nil_of_le hlen
      simp [collectGo, hcur, hdrop, firstHit, hget, Nat.max_eq_left hlen]
    | some ch =>
      have hget : l.chars[l.idx]? = some ch := hcur
      have hdrop := drop_idx_cons hget
      by_cases hcond : cond ch
      · simp [collectGo, hcur, hcond, hdrop, firstHit, hget]
      · have ihresult := ih l.increment_idx (by simp; omega)
        obtain ⟨ih1, ih2, ih3, ih4⟩ := ihresult
        have hdrop' : l.increment_idx.chars.drop l.increment_idx.idx
            = l.chars.drop (l.idx + 1) := by simp
        rw [hdrop'] at ih1 ih3
        have hlt : l.idx < l.chars.length := (List.getElem?_eq_some.mp hget).1
        have key : collectGo (fuel + 1) cond l =
            (ch :: (collectGo fuel cond l.increment_idx).1,
             (collectGo fuel cond l.increment_idx).2) := by
          simp [collectGo, hcur, hcond]
        rw [key]
        dsimp only
        refine ⟨?_, ?_, ?_, ?_⟩
        · rw [ih1, hdrop]
          simp [List.takeWhile_cons, hcond]
        · simpa using ih2
        · rw [ih3, hdrop, firstHit_cons_neg (by simpa using hcond)]
          cases hfh : firstHit cond (l.chars.drop (l.idx + 1)) with
          | none =>
            dsimp only [Option.map_none']
            simp only [increment_idx_idx, increment_idx_chars]
            show max (l.idx + 1) l.chars.length = max l.idx l.chars.length
            omega
          | some k =>
            dsimp only [Option.map_some']
            simp only [increment_idx_idx, increment_idx_chars]
            show l.idx + 1 + k - 1 = l.idx + (k + 1) - 1
            omega
        · rw [ih4]
          simp [hget, hcond]

/-- The same characterization for the skip loop of skip_until. -/
theorem skipGo_spec (fuel : Nat) (cond : Char → Bool) (l : Lexer)
    (hfuel : l.chars.length ≤ l.idx + fuel) :
    (skipGo fuel cond l).chars = l.chars ∧
    (skipGo fuel cond l).idx =
      (match firstHit cond (l.chars.drop l.idx) with
       | some k => l.idx + k - 1
       | none => max l.idx l.chars.length) ∧
    (skipGo fuel cond l).uflow =
      (l.uflow || (decide (l.idx = 0) &&
        (match l.chars[l.idx]? with
         | some c => cond c
         | none => false))) := by
  induction fuel generalizing l with
  | zero =>
    have hlen : l.chars.length ≤ l.idx := by omega
    have hdrop : l.chars.drop l.idx = [] := List.drop_eq_nil_of_le hlen
    have hget : l.chars[l.idx]? = none := List.getElem?_eq_none hlen
    simp [skipGo, hdrop, firstHit, hget, Nat.max_eq_left hlen]
  | succ fuel ih =>
    match hcur : l.get_current_char with
    | none =>
      have hget : l.chars[l.idx]? = none := hcur
      have hlen : l.chars.length ≤ l.idx := by
        by_contra hge
        rw [List.getElem?_eq_getElem (by omega)] at hget
        exact Option.noConfusion hget
      have hdrop : l.chars.drop l.idx = [] := List.drop_eq_nil_of_le hlen
      simp [skipGo, hcur, hdrop, firstHit, hget, Nat.max_eq_left hlen]
    | some ch =>
      have hget : l.chars[l.idx]? = some ch := hcur
      have hdrop := drop_idx_cons hget
      by_cases hcond : cond ch
      · simp [skipGo, hcur, hcond, hdrop, firstHit, hget]
      · have ihresult := ih l.increment_idx (by simp; omega)
        obtain ⟨ih1, ih2, ih3⟩ := ihresult
        have hdrop' : l.increment_idx.chars.drop l.increment_idx.idx
            = l.chars.drop (l.idx + 1) := by simp
        rw [hdrop'] at ih2
        have hlt : l.idx < l.chars.length := (List.getElem?_eq_some.mp hget).1
        have key : skipGo (fuel + 1) cond l = skipGo fuel cond l.increment_idx := by
          simp [skipGo, hcur, hcond]
        rw [key]
        refine ⟨?_, ?_, ?_⟩
        · simpa using ih1
        · rw [ih2, hdrop, firstHit_cons_neg (by simpa using hcond)]
          cases hfh : firstHit cond (l.chars.drop (l.idx + 1)) with
          | none =>
            dsimp only [Option.map_none']
            simp only [increment_idx_idx, increment_idx_chars]
            show max (l.idx + 1) l.chars.length = max l.idx l.chars.length
            omega
          | some k =>
            dsimp only [Option.map_some']
            simp only [increment_idx_idx, increment_idx_chars]
            show l.idx + 1 + k - 1 = l.idx + (k + 1) - 1
            omega
        · rw [ih3]
          simp [hget, hcond]

/-! ## Table lemmas -/

/-- The two pair tables are the same function: the eleven arms are
pairwise disjoint and only their order differs between the two files. -/
theorem pairTokenOld_eq_pairToken (a b : Char) : pairTokenOld a b = pairToken a b := by
  unfold pairTokenOld pairToken
  split <;> split <;> simp_all

theorem singleToken_shape (ch : Char) (t : Token) (h : singleToken ch = some t) :
    (∀ s, t ≠ .Comment s) ∧ (∀ n, t ≠ .Whitespace n) ∧ (∀ s, t ≠ .Ident s) ∧
    (∀ n, t ≠ .Number n) ∧ (∀ s, t ≠ .String s) ∧
    (t = .Colon → ch = ':') ∧ (t = .Equals → ch = '=') ∧
    (t = .OpenSquareBracket → ch = '[') ∧ (t = .CloseSquareBracket → ch = ']') := by
  unfold singleToken at h
  split at h
  all_goals try exact Option.noConfusion h
  all_goals (injection h with h; subst h; simp_all)

theorem pairToken_shape (a b : Char) (t : Token) (h : pairToken a b = some t) :
    (∀ s, t ≠ .Comment s) ∧ (∀ n, t ≠ .Whitespace n) ∧ (∀ s, t ≠ .Ident s) ∧
    (∀ n, t ≠ .Number n) ∧ (∀ s, t ≠ .String s) ∧
    t ≠ .Colon ∧ t ≠ .Equals ∧ t ≠ .OpenSquareBracket ∧ t ≠ .CloseSquareBracket := by
  unfold pairToken at h
  split at h
  all_goals try exact Option.noConfusion h
  all_goals
    (split at h
     all_goals try exact Option.noConfusion h
     all_goals (injection h with h; subst h; simp))

theorem identToken_shape (s : String) :
    (∀ s2, identToken s ≠ .Comment s2) ∧ (∀ n, identToken s ≠ .Whitespace n) ∧
    (∀ s2, identToken s ≠ .String s2) ∧ (∀ n, identToken s ≠ .Number n) ∧
    identToken s ≠ .Colon ∧ identToken s ≠ .Equals ∧
    identToken s ≠ .OpenSquareBracket ∧ identToken s ≠ .CloseSquareBracket := by
  unfold identToken
  split <;> simp

/-! ## Derived properties of collect_until and skip_until -/

theorem collect_until_props (cond : Char → Bool) (l : Lexer) :
    (l.collect_until cond).1 =
      String.mk ((l.chars.drop l.idx).takeWhile (fun c => !cond c)) ∧
    (l.collect_until cond).2.chars = l.chars ∧
    (l.collect_until cond).2.idx =
      (match firstHit cond (l.chars.drop l.idx) with
       | some k => l.idx + k - 1
       | none => max l.idx l.chars.length) ∧
    (l.collect_until cond).2.uflow =
      (l.uflow || (decide (l.idx = 0) &&
        (match l.chars[l.idx]? with
         | some c => cond c
         | none => false))) := by
  obtain ⟨h1, h2, h3, h4⟩ := collectGo_spec (l.chars.length + 1) cond l (by omega)
  exact ⟨by simp only [Lexer.collect_until]; rw [h1], h2, h3, h4⟩

theorem skip_until_props (cond : Char → Bool) (l : Lexer) :
    (l.skip_until cond).2.chars = l.chars ∧
    (l.skip_until cond).2.idx =
      (match firstHit cond (l.chars.drop l.idx) with
       | some k => l.idx + k - 1
       | none => max l.idx l.chars.length) ∧
    (l.skip_until cond).2.uflow =
      (l.uflow || (decide (l.idx = 0) &&
        (match l.chars[l.idx]? with
         | some c => cond c
         | none => false))) ∧
    (l.skip_until cond).1 = (l.skip_until cond).2.idx - l.idx + 1 := by
  obtain ⟨h1, h2, h3⟩ := skipGo_spec (l.chars.length + 1) cond l (by omega)
  exact ⟨h1, h2, h3, rfl⟩

/-! ## Properties of the string loop -/


theorem stringGo_succ_eq (fuel : Nat) (l : Lexer) :
    stringGo (fuel + 1) l =
      (match l.get_current_char with
       | none => ([], l)
       | some ch =>
         if ch == '\\' then
           match l.increment_idx.get_current_char with
           | some c2 =>
             (c2 :: (stringGo fuel l.increment_idx.increment_idx).1,
              (stringGo fuel l.increment_idx.increment_idx).2)
           | none =>
             ((stringGo fuel l.increment_idx.increment_idx).1,
              (stringGo fuel l.increment_idx.increment_idx).2)
         else if ch == '"' then ([], l)
         else
           (ch :: (stringGo fuel l.increment_idx).1,
            (stringGo fuel l.increment_idx).2)) := rfl

theorem drop_head {l : Lexer} {c : Char} {r : List Char}
    (h : l.chars.drop l.idx = c :: r) :
    l.chars[l.idx]? = some c ∧ l.chars.drop (l.idx + 1) = r := by
  constructor
  · have h0 : (l.chars.drop l.idx)[0]? = some c := by rw [h]; simp
    rw [List.getElem?_drop] at h0
    simpa using h0
  · have := List.tail_drop l.chars l.idx
    rw [h] at this
    simpa using this.symm

theorem strContent_other {c : Char} {r : List Char} (h1 : c ≠ '\\') (h2 : c ≠ '"') :
    strContent (c :: r) = c :: strContent r := by
  conv_lhs => unfold strContent
  split <;> simp_all

theorem strAdv_other {c : Char} {r : List Char} (h1 : c ≠ '\\') (h2 : c ≠ '"') :
    strAdv (c :: r) = 1 + strAdv r := by
  conv_lhs => unfold strAdv
  split <;> simp_all

theorem strUnterminated_other {c : Char} {r : List Char} (h1 : c ≠ '\\') (h2 : c ≠ '"') :
    strUnterminated (c :: r) = strUnterminated r := by
  conv_lhs => unfold strUnterminated
  split <;> simp_all

theorem stringGo_past_eoi (fuel : Nat) (l : Lexer) (h : l.chars.length ≤ l.idx) :
    stringGo fuel l = ([], l) := by
  cases fuel with
  | zero => rfl
  | succ fuel =>
    rw [stringGo_succ_eq, show l.get_current_char = none from List.getElem?_eq_none h]

theorem stringGo_spec (n : Nat) : ∀ (r : List Char) (fuel : Nat) (l : Lexer),
    r.length ≤ n → l.chars.drop l.idx = r → r.length < fuel →
    (stringGo fuel l).1 = strContent r ∧
    (stringGo fuel l).2.chars = l.chars ∧
    (stringGo fuel l).2.idx = l.idx + strAdv r := by
  induction n with
  | zero =>
    intro r fuel l hn hdrop hfuel
    have hr : r = [] := List.length_eq_zero.mp (Nat.le_zero.mp hn)
    subst hr
    have hlen : l.chars.length ≤ l.idx := by
      have hl := List.length_drop l.idx l.chars
      rw [hdrop] at hl
      simp at hl
      omega
    rw [stringGo_past_eoi fuel l hlen]
    exact ⟨rfl, rfl, by simp [strAdv]⟩
  | succ n ih =>
    intro r fuel l hn hdrop hfuel
    obtain ⟨fuel2, rfl⟩ : ∃ f2, fuel = f2 + 1 := ⟨fuel - 1, by omega⟩
    cases r with
    | nil =>
      have hlen : l.chars.length ≤ l.idx := by
        have hl := List.length_drop l.idx l.chars
        rw [hdrop] at hl
        simp at hl
        omega
      rw [stringGo_past_eoi (fuel2 + 1) l hlen]
      exact ⟨rfl, rfl, by simp [strAdv]⟩
    | cons c r2 =>
      obtain ⟨hget, hdrop2⟩ := drop_head hdrop
      have hcur : l.get_current_char = some c := hget
      rw [stringGo_succ_eq, hcur]
      dsimp only
      by_cases hb : c = '\\'
      · subst hb
        rw [if_pos (show (('\\' : Char) == '\\') = true from rfl)]
        cases r2 with
        | nil =>
          have hlen1 : l.chars.length ≤ l.idx + 1 := by
            have hl := List.length_drop (l.idx + 1) l.chars
            rw [hdrop2] at hl
            simp at hl
            omega
          have hpk : l.increment_idx.get_current_char = none := by
            show l.increment_idx.chars[l.increment_idx.idx]? = none
            simp only [increment_idx_chars, increment_idx_idx]
            exact List.getElem?_eq_none hlen1
          rw [hpk]
          dsimp only
          have hrec := stringGo_past_eoi fuel2 l.increment_idx.increment_idx
            (by simp; omega)
          rw [hrec]
          refine ⟨rfl, by simp, ?_⟩
          simp [strAdv]
        | cons c2 r3 =>
          have hdrop2i : l.increment_idx.chars.drop l.increment_idx.idx = c2 :: r3 := by
            simpa using hdrop2
          obtain ⟨hg2, hdrop3⟩ := drop_head hdrop2i
          have hpk : l.increment_idx.get_current_char = some c2 := hg2
          rw [hpk]
          dsimp only
          have hdrop3i : l.increment_idx.increment_idx.chars.drop
              l.increment_idx.increment_idx.idx = r3 := by
            simpa using hdrop3
          have hlen3 : r3.length ≤ n := by
            simp at hn
            omega
          have hfuel3 : r3.length < fuel2 := by
            simp at hfuel
            omega
          obtain ⟨ih1, ih2, ih3⟩ := ih r3 fuel2 l.increment_idx.increment_idx hlen3 hdrop3i hfuel3
          refine ⟨?_, ?_, ?_⟩
          · rw [ih1]; rfl
          · simpa using ih2
          · rw [ih3]
            show l.idx + 1 + 1 + strAdv r3 = l.idx + strAdv ('\\' :: c2 :: r3)
            have : strAdv ('\\' :: c2 :: r3) = 2 + strAdv r3 := rfl
            rw [this]
            omega
      · by_cases hq : c = '"'
        · subst hq
          rw [if_neg (by simp), if_pos (show (('"' : Char) == '"') = true from rfl)]
          exact ⟨rfl, rfl, by simp [strAdv]⟩
        · rw [if_neg (by simp [hb]), if_neg (by simp [hq])]
          have hdrop2i : l.increment_idx.chars.drop l.increment_idx.idx = r2 := by
            simpa using hdrop2
          have hlen2 : r2.length ≤ n := by
            simp at hn
            omega
          have hfuel2 : r2.length < fuel2 := by
            simp at hfuel
            omega
          obtain ⟨ih1, ih2, ih3⟩ := ih r2 fuel2 l.increment_idx hlen2 hdrop2i hfuel2
          refine ⟨?_, ?_, ?_⟩
          · rw [ih1, strContent_other hb hq]
          · simpa using ih2
          · rw [ih3, strAdv_other hb hq]
            show l.idx + 1 + strAdv r2 = l.idx + (1 + strAdv r2)
            omega

theorem stringGo_chars (fuel : Nat) (l : Lexer) :
    (stringGo fuel l).2.chars = l.chars := by
  induction fuel generalizing l with
  | zero => rfl
  | succ fuel ih =>
    unfold stringGo
    cases hcur : l.get_current_char with
    | none => rfl
    | some ch =>
      by_cases hb : ch == '\\'
      · cases hc2 : l.increment_idx.get_current_char with
        | some c2 => simp [hb, hc2, ih]
        | none => simp [hb, hc2, ih]
      · by_cases hq : ch == '"'
        · simp [hb, hq]
        · simp [hb, hq, ih]

theorem stringGo_uflow (fuel : Nat) (l : Lexer) :
    (stringGo fuel l).2.uflow = l.uflow := by
  induction fuel generalizing l with
  | zero => rfl
  | succ fuel ih =>
    unfold stringGo
    cases hcur : l.get_current_char with
    | none => rfl
    | some ch =>
      by_cases hb : ch == '\\'
      · cases hc2 : l.increment_idx.get_current_char with
        | some c2 => simp [hb, hc2, ih]
        | none => simp [hb, hc2, ih]
      · by_cases hq : ch == '"'
        · simp [hb, hq]
        · simp [hb, hq, ih]

/-- A found index points at a character satisfying the predicate. -/
theorem firstHit_sound {cond : Char → Bool} :
    ∀ {cs : List Char} {k : Nat}, firstHit cond cs = some k →
      ∃ c, cs[k]? = some c ∧ cond c = true := by
  intro cs
  induction cs with
  | nil => intro k h; exact Option.noConfusion h
  | cons c cs ih =>
    intro k h
    by_cases hc : cond c
    · rw [firstHit_cons_pos hc] at h
      injection h with h
      exact ⟨c, by rw [← h]; simp, hc⟩
    · rw [firstHit_cons_neg (by simpa using hc)] at h
      cases hfh : firstHit cond cs with
      | none => rw [hfh] at h; exact Option.noConfusion h
      | some k2 =>
        rw [hfh] at h
        injection h with h
        obtain ⟨c2, hget, hcond⟩ := ih hfh
        exact ⟨c2, by rw [← h]; simpa using hget, hcond⟩

/-! ## State effects of the dispatch branches -/

theorem punctStep_chars (l : Lexer) (ch : Char) : (punctStep l ch).2.chars = l.chars := by
  unfold punctStep
  rcases hpk : l.peek_next_char with _ | next
  · cases hst : singleToken ch <;> simp [hpk, hst]
  · by_cases hip : is_punctuation next
    · cases hpt : pairToken ch next with
      | some t => simp [hpk, hip, hpt]
      | none => cases hst : singleToken ch <;> simp [hpk, hip, hpt, hst]
    · cases hst : singleToken ch <;> simp [hpk, hip, hst]

theorem punctStep_uflow (l : Lexer) (ch : Char) : (punctStep l ch).2.uflow = l.uflow := by
  unfold punctStep
  rcases hpk : l.peek_next_char with _ | next
  · cases hst : singleToken ch <;> simp [hpk, hst]
  · by_cases hip : is_punctuation next
    · cases hpt : pairToken ch next with
      | some t => simp [hpk, hip, hpt]
      | none => cases hst : singleToken ch <;> simp [hpk, hip, hpt, hst]
    · cases hst : singleToken ch <;> simp [hpk, hip, hst]

theorem scanStep_chars (l : Lexer) (ch : Char) : (scanStep l ch).2.chars = l.chars := by
  unfold scanStep
  split_ifs with hw hi hq hc hn hp
  · simpa using (skip_until_props (fun c => !rustIsWhitespace c) l).1
  · simpa using (collect_until_props (fun c => !(is_identifier c || is_number c)) l).2.1
  · simpa using stringGo_chars (l.chars.length + 1) l.increment_idx
  · simpa using (collect_until_props (fun c => c == '\n') l.increment_idx.increment_idx).2.1
  · cases hpn : parseNumber (l.collect_until (fun c => !is_number c && c != '.')).1 with
    | some n =>
      simpa [hpn] using (collect_until_props (fun c => !is_number c && c != '.') l).2.1
    | none =>
      simpa [hpn] using (collect_until_props (fun c => !is_number c && c != '.') l).2.1
  · exact punctStep_chars l ch
  · rfl

/-- Every dispatch of the classification loop leaves the underflow flag
as it found it: each retreat inside a branch is preceded by an advance
(or guarded by the branch condition on the current character), so no
decrement ever happens at index 0. -/
theorem scanStep_uflow (l : Lexer) (ch : Char) (h : l.chars[l.idx]? = some ch) :
    (scanStep l ch).2.uflow = l.uflow := by
  unfold scanStep
  split_ifs with hw hi hq hc hn hp
  · have hu := (skip_until_props (fun c => !rustIsWhitespace c) l).2.2.1
    rw [h] at hu
    simpa [hw] using hu
  · have hu := (collect_until_props (fun c => !(is_identifier c || is_number c)) l).2.2.2
    rw [h] at hu
    simpa [hi] using hu
  · simpa using stringGo_uflow (l.chars.length + 1) l.increment_idx
  · have hu := (collect_until_props (fun c => c == '\n') l.increment_idx.increment_idx).2.2.2
    simpa using hu
  · have hu := (collect_until_props (fun c => !is_number c && c != '.') l).2.2.2
    rw [h] at hu
    cases hpn : parseNumber (l.collect_until (fun c => !is_number c && c != '.')).1 with
    | some n => simpa [hpn, hn] using hu
    | none => simpa [hpn, hn] using hu
  · exact punctStep_uflow l ch
  · rfl

theorem Token.isWs_iff (t : Token) : t.isWs = true ↔ ∃ n, t = .Whitespace n := by
  cases t <;> simp [Token.isWs]

/-- When the punctuation arm emits a token that is only ever produced by
the single-character table from the character c0, and the pair (c0,
target) is in the pair table, then the lookahead was rejected without a
net index move and the next character cannot be the target. -/
theorem punctStep_greedy (l : Lexer) (ch : Char) (t : Token) (c0 target : Char)
    (h : (punctStep l ch).1 = .ok t)
    (hsingle : ∀ c2, singleToken c2 = some t → c2 = c0)
    (hpair : ∀ a b t2, pairToken a b = some t2 → t2 ≠ t)
    (hhit : pairToken c0 target ≠ none)
    (hpt : is_punctuation target = true) :
    (punctStep l ch).2.idx = l.idx ∧
    ∀ c, l.peek_next_char = some c → c ≠ target := by
  unfold punctStep at h ⊢
  rcases hpk : l.peek_next_char with _ | next
  · cases hst : singleToken ch with
    | none => simp [hpk, hst] at h
    | some t2 =>
      refine ⟨by simp [hpk, hst], ?_⟩
      intro c hc
      exact Option.noConfusion hc
  · by_cases hip : is_punctuation next
    · cases hptk : pairToken ch next with
      | some t2 =>
        simp [hpk, hip, hptk] at h
        exact absurd h (hpair ch next t2 hptk)
      | none =>
        cases hst : singleToken ch with
        | none => simp [hpk, hip, hptk, hst] at h
        | some t2 =>
          simp [hpk, hip, hptk, hst] at h
          subst h
          have hch : ch = c0 := hsingle ch hst
          subst hch
          refine ⟨by simp [hpk, hip, hptk, hst], ?_⟩
          intro c hc heq
          injection hc with hc
          subst hc
          subst heq
          exact hhit hptk
    · cases hst : singleToken ch with
      | none => simp [hpk, hip, hst] at h
      | some t2 =>
        refine ⟨by simp [hpk, hip, hst], ?_⟩
        intro c hc heq
        injection hc with hc
        subst hc
        subst heq
        exact hip hpt

theorem punctStep_token_char (l : Lexer) (ch : Char) (t : Token)
    (h : (punctStep l ch).1 = .ok t) :
    (t = .Equals → ch = '=') ∧ (t = .CloseSquareBracket → ch = ']') := by
  unfold punctStep at h
  rcases hpk : l.peek_next_char with _ | next
  · cases hst : singleToken ch with
    | none => simp [hpk, hst] at h
    | some t2 =>
      simp [hpk, hst] at h
      subst h
      exact ⟨(singleToken_shape ch t2 hst).2.2.2.2.2.2.1,
             (singleToken_shape ch t2 hst).2.2.2.2.2.2.2.2⟩
  · by_cases hip : is_punctuation next
    · cases hptk : pairToken ch next with
      | some t2 =>
        simp [hpk, hip, hptk] at h
        subst h
        constructor
        · intro he; exact absurd he (pairToken_shape ch next t2 hptk).2.2.2.2.2.2.1
        · intro he; exact absurd he (pairToken_shape ch next t2 hptk).2.2.2.2.2.2.2.2
      | none =>
        cases hst : singleToken ch with
        | none => simp [hpk, hip, hptk, hst] at h
        | some t2 =>
          simp [hpk, hip, hptk, hst] at h
          subst h
          exact ⟨(singleToken_shape ch t2 hst).2.2.2.2.2.2.1,
                 (singleToken_shape ch t2 hst).2.2.2.2.2.2.2.2⟩
    · cases hst : singleToken ch with
      | none => simp [hpk, hip, hst] at h
      | some t2 =>
        simp [hpk, hip, hst] at h
        subst h
        exact ⟨(singleToken_shape ch t2 hst).2.2.2.2.2.2.1,
               (singleToken_shape ch t2 hst).2.2.2.2.2.2.2.2⟩

/-- A punctuation dispatch never produces an Ident, Number, String,
Comment or Whitespace token. -/
theorem punctStep_shape (l : Lexer) (ch : Char) (t : Token)
    (h : (punctStep l ch).1 = .ok t) :
    (∀ s, t ≠ .Comment s) ∧ (∀ n, t ≠ .Whitespace n) := by
  unfold punctStep at h
  rcases hpk : l.peek_next_char with _ | next
  · cases hst : singleToken ch with
    | none => simp [hpk, hst] at h
    | some t2 =>
      simp [hpk, hst] at h
      subst h
      exact ⟨(singleToken_shape ch t2 hst).1, (singleToken_shape ch t2 hst).2.1⟩
  · by_cases hip : is_punctuation next
    · cases hptk : pairToken ch next with
      | some t2 =>
        simp [hpk, hip, hptk] at h
        subst h
        exact ⟨(pairToken_shape ch next t2 hptk).1, (pairToken_shape ch next t2 hptk).2.1⟩
      | none =>
        cases hst : singleToken ch with
        | none => simp [hpk, hip, hptk, hst] at h
        | some t2 =>
          simp [hpk, hip, hptk, hst] at h
          subst h
          exact ⟨(singleToken_shape ch t2 hst).1, (singleToken_shape ch t2 hst).2.1⟩
    · cases hst : singleToken ch with
      | none => simp [hpk, hip, hst] at h
      | some t2 =>
        simp [hpk, hip, hst] at h
        subst h
        exact ⟨(singleToken_shape ch t2 hst).1, (singleToken_shape ch t2 hst).2.1⟩

/-- If a dispatch emits a Colon token, the cursor index is unchanged and
the character after the colon is not an equals sign (the pair (:,=) is in
the pair table, so a following equals sign would have produced Assign). -/
theorem scanStep_colon (l : Lexer) (ch : Char)
    (h : (scanStep l ch).1 = .ok .Colon) :
    (scanStep l ch).2.idx = l.idx ∧ ∀ c, l.peek_next_char = some c → c ≠ '=' := by
  unfold scanStep at h ⊢
  split_ifs at h ⊢ with hw hi hq hc hn hp
  · simp at h
  · simp at h
    exact absurd h ((identToken_shape _).2.2.2.2.1)
  · simp at h
  · simp at h
  · cases hpn : parseNumber (l.collect_until (fun c => !is_number c && c != '.')).1 with
    | some n => simp [hpn] at h
    | none => simp [hpn] at h
  · exact punctStep_greedy l ch .Colon ':' '=' h
      (fun c2 hs => (singleToken_shape c2 _ hs).2.2.2.2.2.1 rfl)
      (fun a b t2 hp2 => (pairToken_shape a b t2 hp2).2.2.2.2.2.1)
      (by decide) (by decide)

/-- If a dispatch emits an OpenSquareBracket token, the cursor index is
unchanged and the character after the bracket is not a closing bracket
(the pair would have produced the Array builtin-type token). -/
theorem scanStep_osb (l : Lexer) (ch : Char)
    (h : (scanStep l ch).1 = .ok .OpenSquareBracket) :
    (scanStep l ch).2.idx = l.idx ∧ ∀ c, l.peek_next_char = some c → c ≠ ']' := by
  unfold scanStep at h ⊢
  split_ifs at h ⊢ with hw hi hq hc hn hp
  · simp at h
  · simp at h
    exact absurd h ((identToken_shape _).2.2.2.2.2.2.1)
  · simp at h
  · simp at h
  · cases hpn : parseNumber (l.collect_until (fun c => !is_number c && c != '.')).1 with
    | some n => simp [hpn] at h
    | none => simp [hpn] at h
  · exact punctStep_greedy l ch .OpenSquareBracket '[' ']' h
      (fun c2 hs => (singleToken_shape c2 _ hs).2.2.2.2.2.2.2.1 rfl)
      (fun a b t2 hp2 => (pairToken_shape a b t2 hp2).2.2.2.2.2.2.2.1)
      (by decide) (by decide)

/-- An Equals token only ever arises from an equals-sign current
character, and a CloseSquareBracket token from a closing bracket. -/
theorem scanStep_token_char (l : Lexer) (ch : Char) (t : Token)
    (h : (scanStep l ch).1 = .ok t) :
    (t = .Equals → ch = '=') ∧ (t = .CloseSquareBracket → ch = ']') := by
  unfold scanStep at h
  split_ifs at h with hw hi hq hc hn hp
  · constructor <;> (intro he; subst he; simp at h)
  · simp at h
    constructor <;> (intro he; rw [he] at h)
    · exact absurd h ((identToken_shape _).2.2.2.2.2.1)
    · exact absurd h ((identToken_shape _).2.2.2.2.2.2.2)
  · constructor <;> (intro he; subst he; simp at h)
  · constructor <;> (intro he; subst he; simp at h)
  · cases hpn : parseNumber (l.collect_until (fun c => !is_number c && c != '.')).1 with
    | some n => constructor <;> (intro he; subst he; simp [hpn] at h)
    | none => constructor <;> (intro he; subst he; simp [hpn] at h)
  · exact punctStep_token_char l ch t h

/-- Only the whitespace arm emits Whitespace tokens. -/
theorem scanStep_ws_char (l : Lexer) (ch : Char) (t : Token)
    (h : (scanStep l ch).1 = .ok t) (hws : t.isWs = true) :
    rustIsWhitespace ch = true := by
  obtain ⟨n, rfl⟩ := (Token.isWs_iff t).mp hws
  unfold scanStep at h
  split_ifs at h with hw hi hq hc hn hp
  · exact hw
  · simp at h
    exact absurd h ((identToken_shape _).2.1 n)
  · simp at h
  · simp at h
  · cases hpn : parseNumber (l.collect_until (fun c => !is_number c && c != '.')).1 with
    | some n2 => simp [hpn] at h
    | none => simp [hpn] at h
  · exact absurd rfl ((punctStep_shape l ch _ h).2 n)

/-- After a whitespace dispatch, the character one past the resting index
(the character the main loop advances onto) is not whitespace, or the
scan is past end-of-input: the skip consumed the maximal run. -/
theorem scanStep_ws_next (l : Lexer) (ch : Char) (n : Nat)
    (h : l.chars[l.idx]? = some ch)
    (hs : (scanStep l ch).1 = .ok (.Whitespace n)) :
    ∀ c, l.chars[(scanStep l ch).2.idx + 1]? = some c → rustIsWhitespace c = false := by
  have hw : rustIsWhitespace ch = true := scanStep_ws_char l ch _ hs rfl
  have hlt : l.idx < l.chars.length := (List.getElem?_eq_some.mp h).1
  unfold scanStep
  rw [if_pos hw]
  dsimp only
  obtain ⟨hchars, hidx, _, _⟩ := skip_until_props (fun c => !rustIsWhitespace c) l
  intro c hc
  cases hfh : firstHit (fun c => !rustIsWhitespace c) (l.chars.drop l.idx) with
  | none =>
    have hidx2 : (l.skip_until (fun c => !rustIsWhitespace c)).2.idx
        = max l.idx l.chars.length := by rw [hidx, hfh]
    rw [hidx2, Nat.max_eq_right (Nat.le_of_lt hlt)] at hc
    rw [List.getElem?_eq_none (by omega)] at hc
    exact Option.noConfusion hc
  | some k =>
    have hidx2 : (l.skip_until (fun c => !rustIsWhitespace c)).2.idx
        = l.idx + k - 1 := by rw [hidx, hfh]
    have hk : 1 ≤ k := by
      rcases Nat.eq_zero_or_pos k with hk0 | hk1
      · subst hk0
        obtain ⟨c0, hg0, hc0⟩ := firstHit_sound hfh
        rw [drop_idx_cons h] at hg0
        simp at hg0
        rw [← hg0] at hc0
        simp [hw] at hc0
      · exact hk1
    rw [hidx2] at hc
    have harith : l.idx + k - 1 + 1 = l.idx + k := by omega
    rw [harith] at hc
    obtain ⟨c2, hget2, hcond2⟩ := firstHit_sound hfh
    have hg3 : l.chars[l.idx + k]? = some c2 := by
      rw [← List.getElem?_drop]
      exact hget2
    rw [hg3] at hc
    injection hc with hc
    subst hc
    simpa using hcond2

/-! ## The main loop -/

/-- Unfolding equation for scanGo on positive fuel. -/
theorem scanGo_succ_eq (fuel : Nat) (l : Lexer) :
    scanGo (fuel + 1) l =
      (match l.get_current_char with
       | none => (.ok [], l)
       | some ch =>
         match scanStep l ch with
         | (.error e, l₁) => (.error e, l₁)
         | (.ok tok, l₁) =>
           match scanGo fuel l₁.increment_idx with
           | (.ok ts, lf) => (.ok (⟨l.pos, l₁.pos, tok⟩ :: ts), lf)
           | (.error e, lf) => (.error e, lf)) := rfl

/-- Unfolding equation for scanGoOld on positive fuel. -/
theorem scanGoOld_succ_eq (fuel : Nat) (l : Lexer) :
    scanGoOld (fuel + 1) l =
      (match l.get_current_char with
       | none => (.ok [], l)
       | some ch =>
         match scanStepOld l ch with
         | (.error e, l₁) => (.error e, l₁)
         | (.ok tok, l₁) =>
           match scanGoOld fuel l₁.increment_idx with
           | (.ok ts, lf) => (.ok (⟨l.pos, l₁.pos, tok⟩ :: ts), lf)
           | (.error e, lf) => (.error e, lf)) := rfl


/-- Past end-of-input the main loop emits nothing. -/
theorem scanGo_eoi (fuel : Nat) (l : Lexer) (h : l.chars.length ≤ l.idx) :
    scanGo fuel l = (.ok [], l) := by
  have hnone : l.get_current_char = none := List.getElem?_eq_none h
  cases fuel with
  | zero => rfl
  | succ fuel => simp [scanGo_succ_eq, hnone]

/-- The whole scan preserves the underflow flag: no decrement ever
happens at index 0. -/
theorem scanGo_uflow (fuel : Nat) (l : Lexer) :
    (scanGo fuel l).2.uflow = l.uflow := by
  induction fuel generalizing l with
  | zero => rfl
  | succ fuel ih =>
    cases hcur : l.get_current_char with
    | none => simp [scanGo_succ_eq, hcur]
    | some ch =>
      have hstepu := scanStep_uflow l ch hcur
      rcases hstep : scanStep l ch with ⟨r, l₁⟩
      rw [hstep] at hstepu
      cases r with
      | error e =>
        simp at hstepu
        simp [scanGo_succ_eq, hcur, hstep, hstepu]
      | ok tok =>
        have hihu := ih l₁.increment_idx
        rcases hrec : scanGo fuel l₁.increment_idx with ⟨r2, lf⟩
        rw [hrec] at hihu
        cases r2 with
        | ok ts => simp [scanGo_succ_eq, hcur, hstep, hrec]; simp at hihu; rw [hihu, hstepu]
        | error e => simp [scanGo_succ_eq, hcur, hstep, hrec]; simp at hihu; rw [hihu, hstepu]

/-! ## C4: resting index of collect_until -/

/-- C4 counterexample. On the buffer "a+" with the predicate
"character is +", collect_until returns "a" but leaves the index at 0:
the first character satisfying the predicate sits at index 1 and
end-of-input is index 2, so the cursor does not rest on the first
satisfying character, it rests one position before it. -/
theorem collect_until_counterexample :
    ((Lexer.new "a+".data).collect_until (fun c => c == '+')).1 = "a" ∧
    ((Lexer.new "a+".data).collect_until (fun c => c == '+')).2.idx = 0 ∧
    firstHit (fun c => c == '+') "a+".data = some 1 ∧
    "a+".data.length = 2 :=
  ⟨rfl, rfl, rfl, rfl⟩

/-- C4, amended. After collect_until returns, the returned string is the
maximal predicate-failing run from the entry index, and the cursor index
rests exactly ONE BEFORE the first character satisfying the predicate
(truncated at zero); only when no character satisfies the predicate does
the index rest at end-of-input. -/
theorem collect_until_resting_index (cond : Char → Bool) (l : Lexer) :
    (l.collect_until cond).1 =
      String.mk ((l.chars.drop l.idx).takeWhile (fun c => !cond c)) ∧
    (l.collect_until cond).2.chars = l.chars ∧
    (l.collect_until cond).2.idx =
      (match firstHit cond (l.chars.drop l.idx) with
       | some k => l.idx + k - 1
       | none => max l.idx l.chars.length) := by
  obtain ⟨h1, h2, h3, _⟩ :=
    collectGo_spec (l.chars.length + 1) cond l (by omega)
  refine ⟨?_, ?_, ?_⟩
  · simp only [Lexer.collect_until]
    rw [h1]
  · simp only [Lexer.collect_until]
    exact h2
  · simp only [Lexer.collect_until]
    exact h3

/-! ## C7: skip_until count at end-of-input -/

/-- C7. The count skip_until returns is idx - start + 1, computed after
the loop; when the loop stops at end-of-input no retreat happened, so the
count is one more than the characters advanced past. On the one-character
buffer " " the whole buffer is a whitespace run of length 1, yet
skip_until returns 2, and tokenizing "a " emits Whitespace 2 for that
run of length 1. This contradicts the code's own doc comment (returns
the number of characters skipped). -/
theorem skip_until_eoi_overcount :
    ((Lexer.new " ".data).skip_until (fun c => !rustIsWhitespace c)).1 = 2 ∧
    " ".data.length = 1 ∧
    stripped (scanGo ("a ".data.length + 1) (Lexer.new "a ".data)).1 =
      .ok [.Ident "a", .Whitespace 2] ∧
    "a ".data.length = 2 :=
  ⟨rfl, rfl, rfl, rfl⟩

/-! ## C2: the comment guard -/

/-- C2 counterexample. A lone slash at end-of-input IS classified as a
comment: peek_next_char() is None and the unwrap_or supplies a slash, so
the guard passes and tokenize_code "/" yields one empty Comment token
(never a Slash token). -/
theorem lone_slash_comment_counterexample :
    tokenize_code "/".data = .ok [⟨⟨1, 1⟩, ⟨1, 3⟩, .Comment ""⟩] := rfl

/-! ## C3: multi-dot numeric runs -/

/-- C3. The digit-initiated run "1.2.3" is collected whole, fails the i64
parse and the f64 parse, and hits the unreachable panic: tokenize_code
raises the fatal unparseableNumber error instead of emitting a token.
A lone trailing point ("1.") does parse as f64 and raises no error. -/
theorem multi_dot_number_unreachable :
    tokenize_code "1.2.3".data = .error (.unparseableNumber "1.2.3") ∧
    stripped (tokenize_code "1.".data) = .ok [.Number (.Float "1.")] :=
  ⟨rfl, rfl⟩

/-! ## C5: content of the fatal-error signal -/

/-- C5 counterexample. The offending character ~ sits at line 1 column 1
in the first input and at line 3 column 1 in the second, yet both runs
produce the identical error value: the fatal-error signal determines only
the character, not the source position. -/
theorem fatal_error_position_counterexample :
    tokenize_code "~".data = .error (.unexpectedChar '~') ∧
    tokenize_code "\n\n~".data = .error (.unexpectedChar '~') :=
  ⟨rfl, rfl⟩

/-! ## Position-independence, the old scanner, and underflow -/


theorem skip_until_congr (cond : Char → Bool) (l₁ l₂ : Lexer)
    (hc : l₁.chars = l₂.chars) (hi : l₁.idx = l₂.idx) (hu : l₁.uflow = l₂.uflow) :
    (l₁.skip_until cond).1 = (l₂.skip_until cond).1 ∧
    (l₁.skip_until cond).2.chars = l₂.chars ∧
    (l₁.skip_until cond).2.idx = (l₂.skip_until cond).2.idx ∧
    (l₁.skip_until cond).2.uflow = (l₂.skip_until cond).2.uflow := by
  obtain ⟨a1, a2, a3, a4⟩ := skip_until_props cond l₁
  obtain ⟨b1, b2, b3, b4⟩ := skip_until_props cond l₂
  have hidx : (l₁.skip_until cond).2.idx = (l₂.skip_until cond).2.idx := by
    rw [a2, b2, hc, hi]
  refine ⟨?_, ?_, hidx, ?_⟩
  · rw [a4, b4, hidx, hi]
  · rw [a1, hc]
  · rw [a3, b3, hc, hi, hu]

theorem collect_until_congr (cond : Char → Bool) (l₁ l₂ : Lexer)
    (hc : l₁.chars = l₂.chars) (hi : l₁.idx = l₂.idx) (hu : l₁.uflow = l₂.uflow) :
    (l₁.collect_until cond).1 = (l₂.collect_until cond).1 ∧
    (l₁.collect_until cond).2.chars = l₂.chars ∧
    (l₁.collect_until cond).2.idx = (l₂.collect_until cond).2.idx ∧
    (l₁.collect_until cond).2.uflow = (l₂.collect_until cond).2.uflow := by
  obtain ⟨a1, a2, a3, a4⟩ := collect_until_props cond l₁
  obtain ⟨b1, b2, b3, b4⟩ := collect_until_props cond l₂
  refine ⟨?_, ?_, ?_, ?_⟩
  · rw [a1, b1, hc, hi]
  · rw [a2, hc]
  · rw [a3, b3, hc, hi]
  · rw [a4, b4, hc, hi, hu]

theorem punctStep_congr (ch : Char) (l₁ l₂ : Lexer)
    (hc : l₁.chars = l₂.chars) (hi : l₁.idx = l₂.idx) (hu : l₁.uflow = l₂.uflow) :
    (punctStep l₁ ch).1 = (punctStep l₂ ch).1 ∧
    (punctStep l₁ ch).2.chars = l₂.chars ∧
    (punctStep l₁ ch).2.idx = (punctStep l₂ ch).2.idx ∧
    (punctStep l₁ ch).2.uflow = (punctStep l₂ ch).2.uflow := by
  have hpk : l₁.peek_next_char = l₂.peek_next_char := by
    simp [Lexer.peek_next_char, hc, hi]
  unfold punctStep
  rcases hpk2 : l₂.peek_next_char with _ | next
  · have hpk1 : l₁.peek_next_char = none := by rw [hpk, hpk2]
    rw [hpk1]
    cases hst : singleToken ch <;> simp [hst, hc, hi, hu]
  · have hpk1 : l₁.peek_next_char = some next := by rw [hpk, hpk2]
    rw [hpk1]
    by_cases hip : is_punctuation next
    · cases hptk : pairToken ch next with
      | some t => simp [hip, hptk, hc, hi, hu]
      | none => cases hst : singleToken ch <;> simp [hip, hptk, hst, hc, hi, hu]
    · cases hst : singleToken ch <;> simp [hip, hst, hc, hi, hu]

theorem scanStep_congr (ch : Char) (l₁ l₂ : Lexer)
    (hc : l₁.chars = l₂.chars) (hi : l₁.idx = l₂.idx) (hu : l₁.uflow = l₂.uflow) :
    (scanStep l₁ ch).1 = (scanStep l₂ ch).1 ∧
    (scanStep l₁ ch).2.chars = l₂.chars ∧
    (scanStep l₁ ch).2.idx = (scanStep l₂ ch).2.idx ∧
    (scanStep l₁ ch).2.uflow = (scanStep l₂ ch).2.uflow := by
  have hpk : l₁.peek_next_char = l₂.peek_next_char := by
    simp [Lexer.peek_next_char, hc, hi]
  unfold scanStep
  rw [hpk]
  split_ifs with h1 h2 h3 h4 h5 h6
  · obtain ⟨c1, c2, c3, c4⟩ :=
      skip_until_congr (fun c => !rustIsWhitespace c) l₁ l₂ hc hi hu
    dsimp only
    exact ⟨by rw [c1], c2, c3, c4⟩
  · obtain ⟨c1, c2, c3, c4⟩ :=
      collect_until_congr (fun c => !(is_identifier c || is_number c)) l₁ l₂ hc hi hu
    dsimp only
    exact ⟨by rw [c1], c2, c3, c4⟩
  · have hr : l₁.increment_idx.chars.drop l₁.increment_idx.idx
        = l₁.chars.drop (l₁.idx + 1) := by simp
    have hr2 : l₂.increment_idx.chars.drop l₂.increment_idx.idx
        = l₁.chars.drop (l₁.idx + 1) := by simp [hc, hi]
    have hflen : (l₁.chars.drop (l₁.idx + 1)).length < l₁.chars.length + 1 := by
      rw [List.length_drop]
      omega
    obtain ⟨s1a, s1b, s1c⟩ := stringGo_spec (l₁.chars.drop (l₁.idx + 1)).length
      (l₁.chars.drop (l₁.idx + 1)) (l₁.chars.length + 1) l₁.increment_idx le_rfl hr hflen
    obtain ⟨s2a, s2b, s2c⟩ := stringGo_spec (l₁.chars.drop (l₁.idx + 1)).length
      (l₁.chars.drop (l₁.idx + 1)) (l₂.chars.length + 1) l₂.increment_idx le_rfl hr2
      (by rw [← hc]; exact hflen)
    have hu1 := stringGo_uflow (l₁.chars.length + 1) l₁.increment_idx
    have hu2 := stringGo_uflow (l₂.chars.length + 1) l₂.increment_idx
    dsimp only
    refine ⟨by rw [s1a, s2a], ?_, ?_, ?_⟩
    · rw [s1b]
      simp [hc]
    · rw [s1c, s2c]
      simp [hi]
    · rw [hu1, hu2]
      simp [hu]
  · obtain ⟨c1, c2, c3, c4⟩ :=
      collect_until_congr (fun c => c == '\n') l₁.increment_idx.increment_idx
        l₂.increment_idx.increment_idx (by simp [hc]) (by simp [hi]) (by simp [hu])
    dsimp only
    exact ⟨by rw [c1], c2.trans (by simp), c3, c4⟩
  · obtain ⟨c1, c2, c3, c4⟩ :=
      collect_until_congr (fun c => !is_number c && c != '.') l₁ l₂ hc hi hu
    dsimp only
    rw [c1]
    cases hpn : parseNumber (l₂.collect_until (fun c => !is_number c && c != '.')).1 with
    | some nn => exact ⟨rfl, c2, c3, c4⟩
    | none => exact ⟨rfl, c2, c3, c4⟩
  · exact punctStep_congr ch l₁ l₂ hc hi hu
  · exact ⟨rfl, hc, hi, hu⟩

theorem punctStepOld_eq_parts (l : Lexer) (ch : Char) :
    (punctStepOld l ch).1 = (punctStep l ch).1 ∧
    (punctStepOld l ch).2.chars = (punctStep l ch).2.chars ∧
    (punctStepOld l ch).2.idx = (punctStep l ch).2.idx ∧
    (punctStepOld l ch).2.uflow = (punctStep l ch).2.uflow := by
  unfold punctStepOld punctStep
  rcases hpk : l.peek_next_char with _ | next
  · cases hst : singleToken ch <;> simp [hst]
  · dsimp only
    by_cases hip : is_punctuation next
    · simp only [hip, eq_self_iff_true, if_true]
      rw [pairTokenOld_eq_pairToken]
      cases hptk : pairToken ch next with
      | some t => simp [hptk]
      | none =>
        cases hst : singleToken ch <;>
          simp [hptk, hst, Lexer.raw_decrement, Lexer.raw_increment,
            Lexer.decrement_idx, Lexer.increment_idx]
    · cases hst : singleToken ch <;> simp [hip, hst]

theorem scanStepOld_eq_parts (l : Lexer) (ch : Char) :
    (scanStepOld l ch).1 = (scanStep l ch).1 ∧
    (scanStepOld l ch).2.chars = (scanStep l ch).2.chars ∧
    (scanStepOld l ch).2.idx = (scanStep l ch).2.idx ∧
    (scanStepOld l ch).2.uflow = (scanStep l ch).2.uflow := by
  unfold scanStepOld scanStep
  split_ifs with h1 h2 h3 h4 h5 h6
  · exact ⟨rfl, rfl, rfl, rfl⟩
  · exact ⟨rfl, rfl, rfl, rfl⟩
  · exact ⟨rfl, rfl, rfl, rfl⟩
  · exact ⟨rfl, rfl, rfl, rfl⟩
  · cases hpn : parseNumber (l.collect_until (fun c => !is_number c && c != '.')).1 with
    | some nn => exact ⟨rfl, rfl, rfl, rfl⟩
    | none => exact ⟨rfl, rfl, rfl, rfl⟩
  · exact punctStepOld_eq_parts l ch
  · exact ⟨rfl, rfl, rfl, rfl⟩

/-- The scan outcome, errors included, is a function of the character
buffer, the index and the underflow flag alone: the position fields never
influence which tokens or which fatal error come out. -/
theorem scanGo_congr (fuel : Nat) : ∀ (l₁ l₂ : Lexer),
    l₁.chars = l₂.chars → l₁.idx = l₂.idx → l₁.uflow = l₂.uflow →
    stripped (scanGo fuel l₁).1 = stripped (scanGo fuel l₂).1 := by
  induction fuel with
  | zero => intro l₁ l₂ _ _ _; rfl
  | succ fuel ih =>
    intro l₁ l₂ hc hi hu
    have hcur : l₁.get_current_char = l₂.get_current_char := by
      simp [Lexer.get_current_char, hc, hi]
    rw [scanGo_succ_eq, scanGo_succ_eq]
    cases hcur2 : l₂.get_current_char with
    | none =>
      rw [hcur, hcur2]
    | some ch =>
      rw [hcur, hcur2]
      dsimp only
      obtain ⟨e1, e2, e3, e4⟩ := scanStep_congr ch l₁ l₂ hc hi hu
      rcases hs1 : scanStep l₁ ch with ⟨r1, m1⟩
      rcases hs2 : scanStep l₂ ch with ⟨r2, m2⟩
      rw [hs1] at e1 e2 e3 e4
      rw [hs2] at e1 e3 e4
      dsimp only at e1 e2 e3 e4
      subst e1
      cases r1 with
      | error e => rfl
      | ok tok =>
        dsimp only
        have e2b : m2.chars = l₂.chars := by
          have hcc := scanStep_chars l₂ ch
          rw [hs2] at hcc
          exact hcc
        have ihh := ih m1.increment_idx m2.increment_idx
          (by simp [e2, e2b]) (by simp [e3]) (by simp [e4])
        rcases hr1 : scanGo fuel m1.increment_idx with ⟨q1, f1⟩
        rcases hr2 : scanGo fuel m2.increment_idx with ⟨q2, f2⟩
        rw [hr1, hr2] at ihh
        cases q1 with
        | error e =>
          cases q2 with
          | error e2x =>
            simp only [stripped, Except.map] at ihh ⊢
            exact ihh
          | ok ts =>
            simp [stripped, Except.map] at ihh
        | ok ts1 =>
          cases q2 with
          | error e2x =>
            simp [stripped, Except.map] at ihh
          | ok ts2 =>
            simp only [stripped, Except.map, Except.ok.injEq] at ihh ⊢
            simp only [List.map_cons, EnrichedToken.strip_token]
            rw [ihh]

theorem scanGoOld_congr (fuel : Nat) : ∀ (l₁ l₂ : Lexer),
    l₁.chars = l₂.chars → l₁.idx = l₂.idx → l₁.uflow = l₂.uflow →
    stripped (scanGoOld fuel l₁).1 = stripped (scanGo fuel l₂).1 := by
  induction fuel with
  | zero => intro l₁ l₂ _ _ _; rfl
  | succ fuel ih =>
    intro l₁ l₂ hc hi hu
    have hcur : l₁.get_current_char = l₂.get_current_char := by
      simp [Lexer.get_current_char, hc, hi]
    rw [scanGoOld_succ_eq, scanGo_succ_eq]
    cases hcur2 : l₂.get_current_char with
    | none => rw [hcur, hcur2]
    | some ch =>
      rw [hcur, hcur2]
      dsimp only
      obtain ⟨p1, p2, p3, p4⟩ := scanStepOld_eq_parts l₁ ch
      obtain ⟨e1, e2, e3, e4⟩ := scanStep_congr ch l₁ l₂ hc hi hu
      rcases hs1 : scanStepOld l₁ ch with ⟨r1, m1⟩
      rcases hs0 : scanStep l₁ ch with ⟨r0, m0⟩
      rcases hs2 : scanStep l₂ ch with ⟨r2, m2⟩
      rw [hs1, hs0] at p1 p2 p3 p4
      rw [hs0] at e1 e2 e3 e4
      rw [hs2] at e1 e3 e4
      dsimp only at p1 p2 p3 p4 e1 e2 e3 e4
      rw [p1] at *
      subst e1
      cases r0 with
      | error e => rfl
      | ok tok =>
        dsimp only
        have e2b : m2.chars = l₂.chars := by
          have hcc := scanStep_chars l₂ ch
          rw [hs2] at hcc
          exact hcc
        have ihh := ih m1.increment_idx m2.increment_idx
          (by simp [p2, e2, e2b]) (by simp [p3, e3]) (by simp [p4, e4])
        rcases hr1 : scanGoOld fuel m1.increment_idx with ⟨q1, f1⟩
        rcases hr2 : scanGo fuel m2.increment_idx with ⟨q2, f2⟩
        rw [hr1, hr2] at ihh
        cases q1 with
        | error e =>
          cases q2 with
          | error e2x =>
            simp only [stripped, Except.map] at ihh ⊢
            exact ihh
          | ok ts =>
            simp [stripped, Except.map] at ihh
        | ok ts1 =>
          cases q2 with
          | error e2x =>
            simp [stripped, Except.map] at ihh
          | ok ts2 =>
            simp only [stripped, Except.map, Except.ok.injEq] at ihh ⊢
            simp only [List.map_cons, EnrichedToken.strip_token]
            rw [ihh]

theorem dropTrailingWs_strip (ts₁ ts₂ : List EnrichedToken)
    (h : ts₁.map EnrichedToken.strip_token = ts₂.map EnrichedToken.strip_token) :
    (dropTrailingWs ts₁).map EnrichedToken.strip_token
      = (dropTrailingWs ts₂).map EnrichedToken.strip_token := by
  unfold dropTrailingWs
  have hlast : (ts₁.getLast?).map EnrichedToken.strip_token
      = (ts₂.getLast?).map EnrichedToken.strip_token := by
    rw [← List.getLast?_map, ← List.getLast?_map, h]
  cases h1 : ts₁.getLast? with
  | none =>
    rw [h1] at hlast
    cases h2 : ts₂.getLast? with
    | none => exact h
    | some t2 =>
      rw [h2] at hlast
      exact absurd hlast (by simp)
  | some t1 =>
    rw [h1] at hlast
    cases h2 : ts₂.getLast? with
    | none =>
      rw [h2] at hlast
      exact absurd hlast (by simp)
    | some t2 =>
      rw [h2] at hlast
      simp only [Option.map_some', Option.some.injEq, EnrichedToken.strip_token] at hlast
      have hws : t1.token.isWs = t2.token.isWs := by rw [hlast]
      dsimp only
      by_cases hw : t1.token.isWs
      · rw [if_pos hw, if_pos (show t2.token.isWs = true by rw [← hws]; exact hw)]
        rw [List.map_dropLast, List.map_dropLast, h]
      · rw [if_neg hw, if_neg (show ¬t2.token.isWs = true by rw [← hws]; exact hw)]
        exact h

/-- C10. The old scanner lex_code and the current tokenize_code produce
the same outcome on every input once the start/end positions attached to
each token are stripped: the same token variants and payloads in the same
order, and the identical fatal error on aborting inputs. The two
implementations differ only in the position bookkeeping of the
punctuation lookahead. -/
theorem old_new_token_equivalence (code : List Char) :
    stripped (lex_code code) = stripped (tokenize_code code) := by
  unfold lex_code tokenize_code
  have hmain := scanGoOld_congr (code.length + 1) (Lexer.new code) (Lexer.new code)
    rfl rfl rfl
  rcases h1 : scanGoOld (code.length + 1) (Lexer.new code) with ⟨r1, f1⟩
  rcases h2 : scanGo (code.length + 1) (Lexer.new code) with ⟨r2, f2⟩
  rw [h1, h2] at hmain
  cases r1 with
  | error e1 =>
    cases r2 with
    | error e2 =>
      simp only [stripped, Except.map] at hmain ⊢
      exact hmain
    | ok ts2 => simp [stripped, Except.map] at hmain
  | ok ts1 =>
    cases r2 with
    | error e2 => simp [stripped, Except.map] at hmain
    | ok ts2 =>
      dsimp only
      simp only [stripped, Except.map, Except.ok.injEq] at hmain ⊢
      exact dropTrailingWs_strip ts1 ts2 hmain

/-- C5, amended. The scan outcome - the emitted token values and any
fatal error - is a function of the character buffer, the index and the
underflow flag alone: two cursors that differ only in their position
fields produce identical outcomes, so the fatal-error signal cannot
carry the source position. It carries only the offending character (or
the unparseable text). -/
theorem scan_outcome_ignores_position (fuel : Nat) (cs : List Char) (i : Nat) (u : Bool)
    (p lp q lq : Position) :
    stripped (scanGo fuel ⟨cs, i, p, lp, u⟩).1
      = stripped (scanGo fuel ⟨cs, i, q, lq, u⟩).1 :=
  scanGo_congr fuel _ _ rfl rfl rfl

/-- C9. The underflow flag is still clear after the whole run of the
scanner on any input: decrement_idx is only ever invoked at an index of
at least 1 (every retreat in collect_until, skip_until and the
punctuation lookahead rejection is preceded by an advance or guarded by
the branch condition), so the usize subtraction never underflows. -/
theorem no_index_underflow (code : List Char) :
    (scanGo (code.length + 1) (Lexer.new code)).2.uflow = false := by
  rw [scanGo_uflow]
  rfl


theorem scanGo_zero_eq (l : Lexer) : scanGo 0 l = (.ok [], l) := rfl

theorem scanGo_first_token (fuel : Nat) (l : Lexer) (e : EnrichedToken)
    (rest : List EnrichedToken) (h : (scanGo fuel l).1 = .ok (e :: rest)) :
    ∃ ch, l.get_current_char = some ch ∧ (scanStep l ch).1 = .ok e.token := by
  cases fuel with
  | zero => rw [scanGo_zero_eq] at h; simp at h
  | succ fuel =>
    rw [scanGo_succ_eq] at h
    cases hcur : l.get_current_char with
    | none => rw [hcur] at h; simp at h
    | some ch =>
      rw [hcur] at h
      dsimp only at h
      rcases hstep : scanStep l ch with ⟨r, l₁⟩
      rw [hstep] at h
      cases r with
      | error e2 => simp at h
      | ok tok =>
        dsimp only at h
        rcases hrec : scanGo fuel l₁.increment_idx with ⟨r2, lf⟩
        rw [hrec] at h
        cases r2 with
        | error e2 => simp at h
        | ok ts =>
          dsimp only at h
          injection h with h
          rw [List.cons_eq_cons] at h
          obtain ⟨he, _⟩ := h
          refine ⟨ch, rfl, ?_⟩
          rw [hstep, ← he]

theorem greedyOk_of {a b : Token} (h1 : a = .Colon → b ≠ .Equals)
    (h2 : a = .OpenSquareBracket → b ≠ .CloseSquareBracket) :
    greedyOk a b = true := by
  unfold greedyOk
  by_cases ha : a = .Colon
  · subst ha
    have hb := h1 rfl
    simp [hb]
  · by_cases ha2 : a = .OpenSquareBracket
    · subst ha2
      have hb := h2 rfl
      simp [hb]
    · simp [ha, ha2]

theorem scanGo_chain (fuel : Nat) : ∀ (l : Lexer) (ts : List EnrichedToken),
    (scanGo fuel l).1 = .ok ts →
    List.Chain' (fun a b => greedyOk a b = true) (ts.map EnrichedToken.strip_token) := by
  induction fuel with
  | zero =>
    intro l ts h
    rw [scanGo_zero_eq] at h
    simp at h
    subst h
    simp
  | succ fuel ih =>
    intro l ts h
    rw [scanGo_succ_eq] at h
    cases hcur : l.get_current_char with
    | none =>
      rw [hcur] at h
      simp at h
      subst h
      simp
    | some ch =>
      rw [hcur] at h
      dsimp only at h
      rcases hstep : scanStep l ch with ⟨r, l₁⟩
      rw [hstep] at h
      cases r with
      | error e2 => simp at h
      | ok tok =>
        dsimp only at h
        rcases hrec : scanGo fuel l₁.increment_idx with ⟨r2, lf⟩
        rw [hrec] at h
        cases r2 with
        | error e2 => simp at h
        | ok ts2 =>
          dsimp only at h
          injection h with h
          subst h
          simp only [List.map_cons]
          rw [List.chain'_cons']
          constructor
          · intro b hb
            cases hts2 : ts2 with
            | nil => subst hts2; simp at hb
            | cons e2 rest2 =>
              subst hts2
              simp only [List.map_cons, List.head?_cons, Option.mem_def,
                Option.some.injEq] at hb
              subst hb
              obtain ⟨ch2, hcur2, hstep2⟩ :=
                scanGo_first_token fuel l₁.increment_idx e2 rest2 (by rw [hrec])
              have hchars1 : l₁.chars = l.chars := by
                have := scanStep_chars l ch
                rw [hstep] at this
                exact this
              have hcur2b : l.chars[l₁.idx + 1]? = some ch2 := by
                have : l₁.increment_idx.chars[l₁.increment_idx.idx]? = some ch2 := hcur2
                simpa [hchars1] using this
              apply greedyOk_of
              · intro ha hb
                simp only [EnrichedToken.strip_token] at ha
                have hcolon : (scanStep l ch).1 = .ok .Colon := by
                  rw [hstep, ha]
                obtain ⟨hidx, hpeek⟩ := scanStep_colon l ch hcolon
                rw [hstep] at hidx
                dsimp only at hidx
                have hpk : l.peek_next_char = some ch2 := by
                  show l.chars[l.idx + 1]? = some ch2
                  rw [← hidx]
                  exact hcur2b
                have hne : ch2 ≠ '=' := hpeek ch2 hpk
                exact hne ((scanStep_token_char l₁.increment_idx ch2 _ hstep2).1 hb)
              · intro ha hb
                simp only [EnrichedToken.strip_token] at ha
                have hosb : (scanStep l ch).1 = .ok .OpenSquareBracket := by
                  rw [hstep, ha]
                obtain ⟨hidx, hpeek⟩ := scanStep_osb l ch hosb
                rw [hstep] at hidx
                dsimp only at hidx
                have hpk : l.peek_next_char = some ch2 := by
                  show l.chars[l.idx + 1]? = some ch2
                  rw [← hidx]
                  exact hcur2b
                have hne : ch2 ≠ ']' := hpeek ch2 hpk
                exact hne ((scanStep_token_char l₁.increment_idx ch2 _ hstep2).2 hb)
          · exact ih l₁.increment_idx ts2 (by rw [hrec])

/-- C1. The two-character operators are matched greedily: the input ":="
tokenizes to exactly one Assign token, "[]" to exactly one Array
builtin-type token, and on every successfully tokenized input the output
never contains a Colon token immediately followed by an Equals token nor
an OpenSquareBracket immediately followed by a CloseSquareBracket. -/
theorem greedy_pair_matching :
    stripped (tokenize_code ":=".data) = .ok [.Assign] ∧
    stripped (tokenize_code "[]".data) = .ok [.BuiltinType .Array] ∧
    ∀ code ts, tokenize_code code = .ok ts →
      List.Chain' (fun a b => greedyOk a b = true)
        (ts.map EnrichedToken.strip_token) := by
  refine ⟨rfl, rfl, ?_⟩
  intro code ts h
  unfold tokenize_code at h
  rcases hsc : scanGo (code.length + 1) (Lexer.new code) with ⟨r, lf⟩
  rw [hsc] at h
  cases r with
  | error e => simp at h
  | ok ts0 =>
    dsimp only at h
    injection h with h
    subst h
    have hch := scanGo_chain (code.length + 1) (Lexer.new code) ts0 (by rw [hsc])
    unfold dropTrailingWs
    cases hl : ts0.getLast? with
    | none => exact hch
    | some t =>
      dsimp only
      by_cases hw : t.token.isWs
      · rw [if_pos hw, List.map_dropLast]
        exact hch.prefix ( List.dropLast_prefix (ts0.map EnrichedToken.strip_token))
      · rw [if_neg hw]
        exact hch

theorem greedy_pair_matching_witness :
    List.Chain' (fun a b => greedyOk a b = true)
      (List.map EnrichedToken.strip_token
        [⟨⟨1, 1⟩, ⟨1, 1⟩, .Ident "a"⟩, ⟨⟨1, 2⟩, ⟨1, 3⟩, .Assign⟩,
         ⟨⟨1, 4⟩, ⟨1, 5⟩, .Ident "b"⟩]) :=
  greedy_pair_matching.2.2 "a:=b".data _ rfl

/-- After a whitespace token, the very next emitted token is never a
whitespace token: the skip consumed the maximal whitespace run. -/
theorem scanGo_ws_chain (fuel : Nat) : ∀ (l : Lexer) (ts : List EnrichedToken),
    (scanGo fuel l).1 = .ok ts →
    List.Chain' (fun a b => a.token.isWs = true → b.token.isWs = false) ts := by
  induction fuel with
  | zero =>
    intro l ts h
    rw [scanGo_zero_eq] at h
    simp at h
    subst h
    simp
  | succ fuel ih =>
    intro l ts h
    rw [scanGo_succ_eq] at h
    cases hcur : l.get_current_char with
    | none =>
      rw [hcur] at h
      simp at h
      subst h
      simp
    | some ch =>
      rw [hcur] at h
      dsimp only at h
      rcases hstep : scanStep l ch with ⟨r, l₁⟩
      rw [hstep] at h
      cases r with
      | error e2 => simp at h
      | ok tok =>
        dsimp only at h
        rcases hrec : scanGo fuel l₁.increment_idx with ⟨r2, lf⟩
        rw [hrec] at h
        cases r2 with
        | error e2 => simp at h
        | ok ts2 =>
          dsimp only at h
          injection h with h
          subst h
          rw [List.chain'_cons']
          constructor
          · intro b hb
            cases hts2 : ts2 with
            | nil => subst hts2; simp at hb
            | cons e2 rest2 =>
              subst hts2
              simp only [List.head?_cons, Option.mem_def, Option.some.injEq] at hb
              subst hb
              intro hwtok
              simp only [EnrichedToken.strip_token] at hwtok
              obtain ⟨n, htok⟩ := (Token.isWs_iff tok).mp hwtok
              have hwstep : (scanStep l ch).1 = .ok (.Whitespace n) := by
                rw [hstep, htok]
              have hnext := scanStep_ws_next l ch n hcur hwstep
              obtain ⟨ch2, hcur2, hstep2⟩ :=
                scanGo_first_token fuel l₁.increment_idx e2 rest2 (by rw [hrec])
              have hchars1 : l₁.chars = l.chars := by
                have := scanStep_chars l ch
                rw [hstep] at this
                exact this
              have hcur2b : l.chars[(scanStep l ch).2.idx + 1]? = some ch2 := by
                rw [hstep]
                have : l₁.increment_idx.chars[l₁.increment_idx.idx]? = some ch2 := hcur2
                simpa [hchars1] using this
              have hc2ws : rustIsWhitespace ch2 = false := hnext ch2 hcur2b
              cases hww : e2.token.isWs with
              | false => rfl
              | true =>
                have := scanStep_ws_char l₁.increment_idx ch2 e2.token hstep2 hww
                rw [this] at hc2ws
                exact Bool.noConfusion hc2ws
          · exact ih l₁.increment_idx ts2 (by rw [hrec])

/-- After the post-loop pop, the output never ends with a whitespace
token: a trailing whitespace token has a non-whitespace predecessor. -/
theorem dropTrailingWs_last (ts : List EnrichedToken)
    (hch : List.Chain' (fun a b => a.token.isWs = true → b.token.isWs = false) ts) :
    ∀ t, (dropTrailingWs ts).getLast? = some t → t.token.isWs = false := by
  unfold dropTrailingWs
  cases hl : ts.getLast? with
  | none =>
    intro t ht
    rw [hl] at ht
    exact Option.noConfusion ht
  | some tl =>
    dsimp only
    by_cases hw : tl.token.isWs
    · rw [if_pos hw]
      intro t ht
      have hne : ts ≠ [] := by
        intro h0
        rw [h0] at hl
        exact Option.noConfusion hl
      have htl : tl = ts.getLast hne := by
        have := List.getLast?_eq_getLast ts hne
        rw [hl] at this
        exact Option.some.inj this
      have hdecomp : ts.dropLast ++ [tl] = ts := by
        rw [htl]
        exact List.dropLast_append_getLast hne
      rw [← hdecomp, List.chain'_append] at hch
      obtain ⟨_, _, hx⟩ := hch
      have hR := hx t ht tl (by simp)
      cases hww : t.token.isWs with
      | false => rfl
      | true =>
        have := hR hww
        rw [this] at hw
        exact Bool.noConfusion hw
    · rw [if_neg hw]
      intro t ht
      rw [hl] at ht
      injection ht with ht
      subst ht
      simpa using hw

/-- C8. After the main loop, if the very last emitted token is a
Whitespace token it is popped and nothing else changes: tokenize_code
returns exactly the emitted sequence with that single token removed (or
the emitted sequence itself otherwise), and the returned sequence never
ends with a Whitespace token. -/
theorem trailing_whitespace_drop (code : List Char) (ts0 : List EnrichedToken)
    (lf : Lexer) (h : scanGo (code.length + 1) (Lexer.new code) = (.ok ts0, lf)) :
    tokenize_code code = .ok (dropTrailingWs ts0) ∧
    dropTrailingWs ts0 = (match ts0.getLast? with
      | some t => if t.token.isWs then ts0.dropLast else ts0
      | none => ts0) ∧
    ∀ t, (dropTrailingWs ts0).getLast? = some t → t.token.isWs = false := by
  refine ⟨?_, rfl, ?_⟩
  · unfold tokenize_code
    rw [h]
  · exact dropTrailingWs_last ts0 (scanGo_ws_chain (code.length + 1) (Lexer.new code) ts0
      (by rw [h]))

theorem strUnterminated_le (n : Nat) : ∀ r : List Char, r.length ≤ n →
    strUnterminated r = true → r.length ≤ strAdv r := by
  induction n with
  | zero =>
    intro r hn _
    have : r = [] := List.length_eq_zero.mp (Nat.le_zero.mp hn)
    subst this
    simp [strAdv]
  | succ n ih =>
    intro r hn hu
    cases r with
    | nil => simp [strAdv]
    | cons c r2 =>
      by_cases hb : c = '\\'
      · subst hb
        cases r2 with
        | nil => show ([('\\' : Char)]).length ≤ strAdv ['\\']; simp [strAdv]
        | cons c2 r3 =>
          have hu3 : strUnterminated r3 = true := hu
          have hle := ih r3 (by simp at hn; omega) hu3
          have hadv : strAdv ('\\' :: c2 :: r3) = 2 + strAdv r3 := rfl
          rw [hadv]
          simp only [List.length_cons]
          omega
      · by_cases hq : c = '"'
        · subst hq
          exact absurd hu (by simp [strUnterminated])
        · have hu2 : strUnterminated r2 = true := by
            rw [← strUnterminated_other hb hq]
            exact hu
          have hle := ih r2 (by simp at hn; omega) hu2
          rw [strAdv_other hb hq]
          simp only [List.length_cons]
          omega

/-- C6. An opening quote whose literal is never closed raises no error:
the literal silently stops at end-of-input and the whole input becomes a
single String token whose text copies each character after a backslash
verbatim. -/
theorem unterminated_string_no_error (rest : List Char)
    (hu : strUnterminated rest = true) :
    stripped (tokenize_code ('"' :: rest)) =
      .ok [.String (String.mk (strContent rest))] := by
  unfold tokenize_code
  have hcur : (Lexer.new ('"' :: rest)).get_current_char = some '"' := by
    simp [Lexer.get_current_char, Lexer.new]
  rw [show ('"' :: rest).length + 1 = rest.length + 1 + 1 from rfl]
  rw [scanGo_succ_eq, hcur]
  dsimp only
  have hdropr : (Lexer.new ('"' :: rest)).increment_idx.chars.drop
      (Lexer.new ('"' :: rest)).increment_idx.idx = rest := rfl
  have hflen : rest.length < (Lexer.new ('"' :: rest)).chars.length + 1 := by
    show rest.length < ('"' :: rest).length + 1
    simp only [List.length_cons]
    omega
  obtain ⟨s1, s2, s3⟩ := stringGo_spec rest.length rest
    ((Lexer.new ('"' :: rest)).chars.length + 1)
    (Lexer.new ('"' :: rest)).increment_idx le_rfl hdropr hflen
  have hadv := strUnterminated_le rest.length rest le_rfl hu
  rcases hsg : stringGo ((Lexer.new ('"' :: rest)).chars.length + 1)
      (Lexer.new ('"' :: rest)).increment_idx with ⟨cs, l₂⟩
  rw [hsg] at s1 s2 s3
  dsimp only at s1 s2 s3
  have hstep : scanStep (Lexer.new ('"' :: rest)) '"' =
      (.ok (.String (String.mk cs)), l₂) := by
    unfold scanStep
    rw [if_neg (by decide), if_neg (by decide),
      if_pos (show (('"' : Char) == '"') = true by decide)]
    dsimp only
    rw [hsg]
  rw [hstep]
  dsimp only
  have hidx2 : l₂.chars.length ≤ l₂.increment_idx.idx := by
    have hclen : l₂.chars.length = ('"' :: rest).length := by rw [s2]; rfl
    have hlen2 : ('"' :: rest).length = rest.length + 1 := rfl
    simp only [increment_idx_idx]
    rw [hclen, hlen2, s3]
    show rest.length + 1 ≤ (Lexer.new ('"' :: rest)).increment_idx.idx + strAdv rest + 1
    have : (Lexer.new ('"' :: rest)).increment_idx.idx = 1 := rfl
    omega
  have heoi := scanGo_eoi (rest.length + 1) l₂.increment_idx
    (by simpa using hidx2)
  rw [heoi]
  dsimp only
  rw [s1]
  rfl

theorem unterminated_string_no_error_witness :
    stripped (tokenize_code ('"' :: ('a' :: '\\' :: '"' :: []))) =
      .ok [.String "a\""] :=
  unterminated_string_no_error ('a' :: '\\' :: '"' :: []) rfl

/-- C2, amended. A dispatch emits a Comment token exactly when the
current character is a slash and the peeked successor, defaulted to a
slash when absent, is a slash; and whenever that guard passes, both
slashes are consumed and the emitted token is the text collected from
two positions past the slash up to (not including) the next newline,
trimmed of surrounding whitespace, with the cursor left by the
collect_until resting rule. -/
theorem comment_guard_and_content (l : Lexer) (ch : Char) (tok : Token) (l₂ : Lexer)
    (hs : scanStep l ch = (.ok tok, l₂)) :
    ((∃ s, tok = .Comment s) ↔ (ch = '/' ∧ (l.peek_next_char).getD '/' = '/')) ∧
    (ch = '/' → (l.peek_next_char).getD '/' = '/' →
      tok = .Comment (String.mk (rustTrim
        ((l.chars.drop (l.idx + 2)).takeWhile (fun c => !(c == '\n'))))) ∧
      l₂.chars = l.chars ∧
      l₂.idx =
        (match firstHit (fun c => c == '\n') (l.chars.drop (l.idx + 2)) with
         | some k => l.idx + 2 + k - 1
         | none => max (l.idx + 2) l.chars.length)) := by
  constructor
  · constructor
    · rintro ⟨s, htok⟩
      subst htok
      unfold scanStep at hs
      split_ifs at hs with h1 h2 h3 h4 h5 h6
      · simp at hs
      · simp at hs
        exact absurd hs.1 ((identToken_shape _).1 s)
      · simp at hs
      · have h4b : ch = '/' ∧ ((l.peek_next_char).getD '/' == '/') = true := by
          simpa using h4
        exact ⟨h4b.1, by simpa using h4b.2⟩
      · cases hpn : parseNumber (l.collect_until (fun c => !is_number c && c != '.')).1 with
        | some n => simp [hpn] at hs
        | none => simp [hpn] at hs
      · have hfst : (punctStep l ch).1 = .ok (.Comment s) := by rw [hs]
        exact absurd rfl ((punctStep_shape l ch _ hfst).1 s)
      · simp at hs
    · rintro ⟨hc, hg⟩
      subst hc
      unfold scanStep at hs
      rw [if_neg (by decide), if_neg (by decide), if_neg (by decide),
        if_pos (show ((('/' : Char) == '/') &&
          (((l.peek_next_char).getD '/') == '/')) = true by simp [hg])] at hs
      have := congrArg Prod.fst hs
      dsimp only at this
      injection this with this
      exact ⟨_, this.symm⟩
  · intro hc hg
    subst hc
    unfold scanStep at hs
    rw [if_neg (by decide), if_neg (by decide), if_neg (by decide),
      if_pos (show ((('/' : Char) == '/') &&
        (((l.peek_next_char).getD '/') == '/')) = true by simp [hg])] at hs
    dsimp only at hs
    obtain ⟨c1, c2, c3, c4⟩ := collect_until_props (fun c => c == '\n')
      l.increment_idx.increment_idx
    rcases hcol : (l.increment_idx.increment_idx).collect_until (fun c => c == '\n')
      with ⟨comment, l₂x⟩
    rw [hcol] at hs c1 c2 c3
    dsimp only at hs c1 c2 c3
    have h1 := congrArg Prod.fst hs
    have h2 := congrArg Prod.snd hs
    dsimp only at h1 h2
    injection h1 with h1
    subst h2
    refine ⟨?_, ?_, ?_⟩
    · rw [← h1, c1]
      simp only [increment_idx_chars, increment_idx_idx]
    · rw [c2]
      rfl
    · rw [c3]
      simp only [increment_idx_chars, increment_idx_idx]

theorem comment_guard_and_content_witness :
    (((∃ s, Token.Comment "x" = Token.Comment s) ↔
       ('/' = '/' ∧ (((Lexer.new "//x".data).peek_next_char).getD '/' = '/'))) ∧
     ('/' = '/' → ((Lexer.new "//x".data).peek_next_char).getD '/' = '/' →
       Token.Comment "x" = .Comment (String.mk (rustTrim
         (((Lexer.new "//x".data).chars.drop ((Lexer.new "//x".data).idx + 2)).takeWhile
           (fun c => !(c == '\n'))))) ∧
       (⟨"//x".data, 3, ⟨1, 4⟩, ⟨1, 3⟩, false⟩ : Lexer).chars =
         (Lexer.new "//x".data).chars ∧
       (⟨"//x".data, 3, ⟨1, 4⟩, ⟨1, 3⟩, false⟩ : Lexer).idx =
         (match firstHit (fun c => c == '\n')
             ((Lexer.new "//x".data).chars.drop ((Lexer.new "//x".data).idx + 2)) with
          | some k => (Lexer.new "//x".data).idx + 2 + k - 1
          | none => max ((Lexer.new "//x".data).idx + 2)
              (Lexer.new "//x".data).chars.length))) :=
  comment_guard_and_content (Lexer.new "//x".data) '/' (Token.Comment "x")
    ⟨"//x".data, 3, ⟨1, 4⟩, ⟨1, 3⟩, false⟩ rfl

theorem trailing_whitespace_drop_witness :
    tokenize_code "a ".data = .ok (dropTrailingWs
      [⟨⟨1, 1⟩, ⟨1, 1⟩, Token.Ident "a"⟩, ⟨⟨1, 2⟩, ⟨1, 3⟩, Token.Whitespace 2⟩]) :=
  (trailing_whitespace_drop "a ".data _ _ rfl).1

end Zenith
